import Mathlib

/-!
# Verification of the `trache` restore-conflict subsystem

Shallow embedding of the pattern compiler, matcher, selection parser,
interactive prompt protocol and naming scheme of the `trache` command-line
tool (`src/main.rs`, `src/interact.rs`), together with proofs of the
specification claims about them.

Strings are modelled as `List Char`; fallible Rust functions returning
`Result` are modelled with `Except`; the blocking input stream (`dyn
BufRead`) is modelled as a list of input lines that each read consumes from;
filesystem and trash-store side effects are modelled as explicit effect
traces.
-/

namespace Trache

/-! ## Basic string utilities

`Char` helpers mirroring the Rust standard library operations used by the
source (`str::trim`, `char::to_lowercase`, decimal `Display` for `usize`,
`str::parse::<usize>`, `str::split_once`). -/

/-- ASCII whitespace recognizer modelling the whitespace class that
`str::trim` strips in the inputs this tool sees. -/
def isWS (c : Char) : Bool :=
  c == ' ' || c == '\t' || c == '\n' || c == '\r'

/-- `str::trim`: remove whitespace from both ends. -/
def trimChars (s : List Char) : List Char :=
  ((s.dropWhile isWS).reverse.dropWhile isWS).reverse

/-- The decimal digit character for `d < 10`. -/
def digitChar (d : Nat) : Char :=
  Char.ofNat (48 + d)

/-- Decimal rendering with explicit recursion depth (`n` shrinks by a
factor of ten per step, so the wrapper's `n + 1` can never run out). -/
def natToDecimalF : Nat → Nat → List Char
  | 0, _ => []
  | fuel + 1, n =>
    if n < 10 then [digitChar n]
    else natToDecimalF fuel (n / 10) ++ [digitChar (n % 10)]

/-- Decimal rendering of a natural number, modelling Rust's `Display` for
`usize` as used by `format!("{n}")`. -/
def natToDecimal (n : Nat) : List Char :=
  natToDecimalF (n + 1) n

/-- `str::parse::<usize>`: an optional leading `+` sign followed by at least
one decimal digit; anything else fails.  (Overflow of the 64-bit `usize` is
not modelled: every caller in the source rejects values above its `max`
bound, which is what happens to overflowing literals as well.) -/
def parseUsize (s : List Char) : Option Nat :=
  let digits := match s with
    | '+' :: rest => rest
    | _ => s
  if digits.isEmpty then none
  else if digits.all (fun c => c.isDigit) then
    some (digits.foldl (fun acc c => acc * 10 + (c.toNat - 48)) 0)
  else none

/-- `str::split_once(sep)`: split at the first occurrence of `sep`,
returning the text before and after it, or `none` if `sep` is absent. -/
def splitOnce (sep : Char) : List Char → Option (List Char × List Char)
  | [] => none
  | c :: rest =>
    if c == sep then some ([], rest)
    else (splitOnce sep rest).map (fun p => (c :: p.1, p.2))

/-- Remove adjacent duplicates, modelling `Vec::dedup` (which the source
always runs right after `Vec::sort`, so it fully deduplicates). -/
def dedupAdj : List Nat → List Nat
  | [] => []
  | [a] => [a]
  | a :: b :: rest =>
    if a == b then dedupAdj (b :: rest) else a :: dedupAdj (b :: rest)

/-! ## Selection parser (`interact.rs`, `parse_selection`) -/

/-- The `for i in start..=end` body of `parse_selection`'s range arm: push
each index, failing as soon as one falls outside `[1, max]`.  The iteration
list is materialised as `List.range' start (end + 1 - start)`. -/
def rangePush (maxv : Nat) : List Nat → List Nat → Except String (List Nat)
  | [], acc => .ok acc
  | i :: is, acc =>
    if i < 1 || maxv < i then
      .error s!"selection {i} out of range (1-{maxv})"
    else rangePush maxv is (acc ++ [i])

/-- One token of `parse_selection`'s comma loop: trim, skip empties, and
parse either `a-b` (via `split_once('-')`) or a single integer. -/
def parseSelPart (maxv : Nat) (acc : List Nat) (part : List Char) :
    Except String (List Nat) :=
  let part := trimChars part
  if part.isEmpty then .ok acc
  else
    match splitOnce '-' part with
    | some (a, b) =>
      match parseUsize (trimChars a) with
      | none => .error s!"invalid number: '{String.mk (trimChars a)}'"
      | some s =>
        match parseUsize (trimChars b) with
        | none => .error s!"invalid number: '{String.mk (trimChars b)}'"
        | some e =>
          if e < s then .error s!"invalid range: {s}-{e}"
          else rangePush maxv (List.range' s (e + 1 - s)) acc
    | none =>
      match parseUsize part with
      | none => .error s!"invalid number: '{String.mk part}'"
      | some n =>
        if n < 1 || maxv < n then
          .error s!"selection {n} out of range (1-{maxv})"
        else .ok (acc ++ [n])

/-- The comma loop of `parse_selection`, threading the `result` vector. -/
def parseSelParts (maxv : Nat) : List (List Char) → List Nat →
    Except String (List Nat)
  | [], acc => .ok acc
  | part :: rest, acc =>
    match parseSelPart maxv acc part with
    | .ok acc' => parseSelParts maxv rest acc'
    | .error e => .error e

/-- `parse_selection(input, max)` from `interact.rs`: split on commas,
resolve every token, then sort ascending (`Vec::sort`, modelled by the
sorted-permutation-producing `insertionSort`) and deduplicate. -/
def parse_selection (input : List Char) (maxv : Nat) :
    Except String (List Nat) :=
  match parseSelParts maxv (input.splitOn ',') [] with
  | .ok result => .ok (dedupAdj (result.insertionSort (fun a b => a ≤ b)))
  | .error e => .error e

/-- Whether an `Except` computation succeeded. -/
def exceptOk {ε α : Type} : Except ε α → Bool
  | .ok _ => true
  | .error _ => false

/-! ### Specification-side characterisation of `parse_selection`

`selTokenOK` is written from the spec's words ("comma-separated tokens,
each either a single positive integer or an inclusive range `a-b` with
`a <= b`; whitespace around tokens and around the hyphen is ignored; empty
tokens are skipped; every resolved integer must satisfy `1 <= n <= max`"),
to be compared with the implementation. -/

/-- Spec-side validity of one comma-separated token. -/
def selTokenOK (maxv : Nat) (part : List Char) : Bool :=
  let t := trimChars part
  t.isEmpty ||
    (match splitOnce '-' t with
     | some (a, b) =>
       match parseUsize (trimChars a), parseUsize (trimChars b) with
       | some s, some e => decide (s ≤ e) && decide (1 ≤ s) && decide (e ≤ maxv)
       | _, _ => false
     | none =>
       match parseUsize t with
       | some n => decide (1 ≤ n) && decide (n ≤ maxv)
       | none => false)

/-- The integers one token resolves to (empty for skipped tokens). -/
def selTokenVals (part : List Char) : List Nat :=
  let t := trimChars part
  if t.isEmpty then []
  else
    match splitOnce '-' t with
    | some (a, b) =>
      match parseUsize (trimChars a), parseUsize (trimChars b) with
      | some s, some e => List.range' s (e + 1 - s)
      | _, _ => []
    | none =>
      match parseUsize t with
      | some n => [n]
      | none => []

/-! ## Pattern compiler (`main.rs`, `parse_pattern`)

The Rust function carries the match type as a string tag `"glob" | "regex" |
"string"`; it is modelled by the closed inductive `MatchType`. -/

inductive MatchType
  | glob
  | regex
  | string
deriving DecidableEq, Repr

inductive MatchTarget
  | name
  | path
deriving DecidableEq, Repr

structure ParsedPattern where
  pattern : List Char
  match_type : MatchType
  full : Bool
  target : MatchTarget
deriving DecidableEq, Repr

def pfxGlob : List Char := ['g', 'l', 'o', 'b', ':']

def pfxRegex : List Char := ['r', 'e', 'g', 'e', 'x', ':']

def pfxString : List Char := ['s', 't', 'r', 'i', 'n', 'g', ':']

def pfxFull : List Char := ['f', 'u', 'l', 'l', ':']

def pfxPart : List Char := ['p', 'a', 'r', 't', 'i', 'a', 'l', ':']

def pfxName : List Char := ['n', 'a', 'm', 'e', ':']

def pfxPath : List Char := ['p', 'a', 't', 'h', ':']

/-- The stripping loop of `parse_pattern`: repeatedly consume a recognized
modifier prefix via `strip_prefix`, updating the corresponding group, until
none matches.  `fuel` only bounds the number of loop iterations (each
iteration strips at least one character, so the wrapper's `raw.length + 1`
can never run out); it makes the recursion structural. -/
def parsePatternGo : Nat → List Char → MatchType → Bool → MatchTarget →
    ParsedPattern
  | 0, rest, mt, full, tg => ⟨rest, mt, full, tg⟩
  | fuel + 1, rest, mt, full, tg =>
    if pfxGlob.isPrefixOf rest then
      parsePatternGo fuel (rest.drop 5) .glob full tg
    else if pfxRegex.isPrefixOf rest then
      parsePatternGo fuel (rest.drop 6) .regex full tg
    else if pfxString.isPrefixOf rest then
      parsePatternGo fuel (rest.drop 7) .string full tg
    else if pfxFull.isPrefixOf rest then
      parsePatternGo fuel (rest.drop 5) mt true tg
    else if pfxPart.isPrefixOf rest then
      parsePatternGo fuel (rest.drop 8) mt false tg
    else if pfxName.isPrefixOf rest then
      parsePatternGo fuel (rest.drop 5) mt full .name
    else if pfxPath.isPrefixOf rest then
      parsePatternGo fuel (rest.drop 5) mt full .path
    else ⟨rest, mt, full, tg⟩

/-- `parse_pattern(raw)` from `main.rs`: strip recognized colon-prefixed
modifiers left-to-right starting from the defaults Glob/Partial/Name; the
unconsumed rest is the literal pattern body.  Total — it never fails. -/
def parse_pattern (raw : List Char) : ParsedPattern :=
  parsePatternGo (raw.length + 1) raw .glob false .name

/-! ### Modifier algebra for the stacking-order properties -/

inductive Modifier
  | glob
  | regex
  | string
  | full
  | part
  | name
  | path
deriving DecidableEq, Repr

def Modifier.render : Modifier → List Char
  | .glob => pfxGlob
  | .regex => pfxRegex
  | .string => pfxString
  | .full => pfxFull
  | .part => pfxPart
  | .name => pfxName
  | .path => pfxPath

/-- The pure state update a single recognized modifier performs. -/
def Modifier.applyMod : Modifier → MatchType × Bool × MatchTarget →
    MatchType × Bool × MatchTarget
  | .glob, (_, f, t) => (.glob, f, t)
  | .regex, (_, f, t) => (.regex, f, t)
  | .string, (_, f, t) => (.string, f, t)
  | .full, (m, _, t) => (m, true, t)
  | .part, (m, _, t) => (m, false, t)
  | .name, (m, f, _) => (m, f, .name)
  | .path, (m, f, _) => (m, f, .path)

def allMods : List Modifier :=
  [.glob, .regex, .string, .full, .part, .name, .path]

/-- A body that does not start with any recognized modifier (so the
stripping loop stops on it). -/
def noModB (body : List Char) : Bool :=
  allMods.all (fun m => !(m.render.isPrefixOf body))

def renderMods (mods : List Modifier) : List Char :=
  mods.flatMap Modifier.render

/-- The value the type group ends up with: the last type modifier wins. -/
def Modifier.typeVal : Modifier → Option MatchType
  | .glob => some .glob
  | .regex => some .regex
  | .string => some .string
  | _ => none

def Modifier.extentVal : Modifier → Option Bool
  | .full => some true
  | .part => some false
  | _ => none

def Modifier.targetVal : Modifier → Option MatchTarget
  | .name => some .name
  | .path => some .path
  | _ => none

/-- Final state of a modifier stack, starting from defaults. -/
def foldMods (mods : List Modifier) (st : MatchType × Bool × MatchTarget) :
    MatchType × Bool × MatchTarget :=
  mods.foldl (fun s m => m.applyMod s) st

/-! ## Regex semantics (the `regex` crate as used by `CompiledMatcher`)

`main.rs` delegates regex matching to the external `regex` crate, whose
documented semantics are leftmost-first: the reported match begins at the
earliest possible position, and ties are broken the way a backtracking
engine would (alternations prefer their left branch, repetition is greedy,
and a repetition never takes an empty iteration).  The crate is modelled
over Mathlib's `RegularExpression` AST: `matchLens` lists the lengths of
all matches of a pattern at the start of a string in backtracking priority
order, and `rfind` scans start positions left to right, returning the span
of the leftmost-first match. -/

abbrev RE := RegularExpression Char

/-- One unrolling step: match lengths at the start of the string, priority
ordered, where `prev` answers queries for further `star` iterations.
Structural in the regex. -/
def matchLensAux (prev : RE → List Char → List Nat) :
    RE → List Char → List Nat
  | .zero, _ => []
  | .epsilon, _ => [0]
  | .char _, [] => []
  | .char c, c' :: _ => if c = c' then [1] else []
  | .plus r1 r2, s => matchLensAux prev r1 s ++ matchLensAux prev r2 s
  | .comp r1 r2, s =>
    (matchLensAux prev r1 s).flatMap
      (fun l => (matchLensAux prev r2 (s.drop l)).map (fun l2 => l + l2))
  | .star r, s =>
    ((matchLensAux prev r s).filter (fun l => decide (0 < l))).flatMap
      (fun l => (prev (.star r) (s.drop l)).map (fun l2 => l + l2)) ++ [0]

/-- Match lengths with `star` unrolled at most `fuel` more times.  Each
unrolled iteration consumes at least one character (the `0 < l` filter —
the `regex` crate never matches an empty loop iteration), so the wrapper's
`s.length` fuel can never run out. -/
def matchLensF : Nat → RE → List Char → List Nat
  | 0 => matchLensAux (fun _ _ => [])
  | f + 1 => matchLensAux (matchLensF f)

/-- All match lengths of `r` at the start of `s`, in backtracking priority
order (leftmost-first semantics of the `regex` crate). -/
def matchLens (r : RE) (s : List Char) : List Nat :=
  matchLensF s.length r s

/-- `Regex::find`: the span `(start, end)` of the leftmost-first match of
`r` in `h`, scanning candidate start positions left to right. -/
def rfind (r : RE) (h : List Char) : Option (Nat × Nat) :=
  (List.range (h.length + 1)).findSome? (fun i =>
    match (matchLens r (h.drop i)).head? with
    | some l => some (i, i + l)
    | none => none)

/-! ## Compiled matcher (`main.rs`, `CompiledMatcher::is_match`)

The `Glob` variant delegates to the external `globset` crate; a compiled
glob matcher is modelled by its extension, an arbitrary predicate on
strings, since no claim depends on glob syntax. -/

inductive CompiledMatcher
  | glob (g : List Char → Bool)
  | regex (r : RE) (full : Bool)
  | string (s : List Char) (full : Bool)

/-- Rust `str::contains`: substring search, scanning candidate start
positions left to right. -/
def containsSub (hay pat : List Char) : Bool :=
  pat.isPrefixOf hay ||
    match hay with
    | [] => false
    | _ :: t => containsSub t pat

/-- `CompiledMatcher::is_match` from `main.rs`. -/
def CompiledMatcher.is_match : CompiledMatcher → List Char → Bool
  | .glob g, haystack => g haystack
  | .regex r full, haystack =>
    if full then
      match rfind r haystack with
      | some (s, e) => decide (s = 0 ∧ e = haystack.length)
      | none => false
    else (rfind r haystack).isSome
  | .string s full, haystack =>
    if full then haystack == s else containsSub haystack s

/-! ## Naming scheme (`interact.rs`, `untrash_name`, `find_untrash_range`)

`untrash_name` manipulates only the basename (`Path::file_stem` /
`Path::extension`); the parent directory is passed through `Path::join`
unchanged, so it is modelled at the basename level. -/

/-- Rust `Path::file_stem`/`Path::extension` on a file name: the name
splits at its last `.` provided that dot is not the leading character (a
dotfile with no further dot has no extension; so does a dotless name). -/
def lastDotSplit (name : List Char) : List Char × Option (List Char) :=
  match name.reverse.findIdx? (fun c => c == '.') with
  | none => (name, none)
  | some j =>
    let i := name.length - 1 - j
    if 1 ≤ i then (name.take i, some (name.drop (i + 1))) else (name, none)

/-- `untrash_name(path, n)` from `interact.rs`:
`format!("{stem}-untrash_{n}.{ext}")`, or without the trailing `.{ext}`
when the name has no extension. -/
def untrash_name (name : List Char) (n : Nat) : List Char :=
  match lastDotSplit name with
  | (stem, some ext) =>
    stem ++ "-untrash_".toList ++ natToDecimal n ++ '.' :: ext
  | (stem, none) => stem ++ "-untrash_".toList ++ natToDecimal n

/-- The loop of `find_untrash_range(path, count)` from `interact.rs`.  The
disk probe `untrash_name(path, i).exists()` is modelled by membership of
the index `i` in the finite list `occ` of indices whose untrash name
exists (`untrash_name path ·` is injective — see `untrash_name_inj` — so
any finite disk induces such a finite index list).  `fuel` only bounds the
number of restarts (each restart begins past a member of `occ`, so the
wrapper's `occ.foldr max 0 + 1` can never run out); it makes the recursion
structural. -/
def findUntrashGo (occ : List Nat) (count : Nat) : Nat → Nat → Nat
  | 0, start => start
  | fuel + 1, start =>
    match (List.range' start count).find? (fun i => occ.contains i) with
    | none => start
    | some i => findUntrashGo occ count fuel (i + 1)

/-- `find_untrash_range(path, count)`: smallest start of a contiguous block
of `count` unoccupied untrash indices, scanning forward in blocks and
restarting past each collision. -/
def find_untrash_range (occ : List Nat) (count : Nat) : Nat :=
  findUntrashGo occ count (occ.foldr max 0 + 1) 1

/-- Whether the block of `count` indices starting at `s` is entirely free. -/
def blockFreeB (occ : List Nat) (count s : Nat) : Bool :=
  (List.range' s count).all (fun j => !(occ.contains j))

/-! ## Interactive prompts (`interact.rs`)

The blocking input stream (`&mut dyn BufRead`) is modelled as a list of
input lines; reading a line consumes the head, and an exhausted list is
end-of-input (a `read_line` returning 0 bytes).  Each prompt function
returns its resolution together with the unconsumed remainder of the
stream; the prompts' display output (`eprintln!`) carries no state and is
not modelled. -/

inductive TwinChoice
  | all
  | some (sel : List Nat)
  | none
  | quit
deriving DecidableEq, Repr

inductive CollisionChoice
  | overwrite
  | keepBoth
  | none
  | quit
deriving DecidableEq, Repr

structure TwinInfo where
  name : List Char
  timestamp : List Char
deriving DecidableEq, Repr

/-- `line.trim().to_lowercase().chars().next()`. -/
def lowerFirst (line : List Char) : Option Char :=
  ((trimChars line).map Char.toLower).head?

/-- `prompt_selection(input, count)` from `interact.rs`: loop reading a
line; end-of-input resolves to `none`; blank lines, parse errors and empty
selections re-prompt. -/
def prompt_selection (count : Nat) :
    List (List Char) → Option (List Nat) × List (List Char)
  | [] => (none, [])
  | line :: rest =>
    let trimmed := trimChars line
    if trimmed.isEmpty then prompt_selection count rest
    else
      match parse_selection trimmed count with
      | .ok sel =>
        if sel.isEmpty then prompt_selection count rest else (some sel, rest)
      | .error _ => prompt_selection count rest

/-- `prompt_twins(input, path, twins, range_desc, once)` from
`interact.rs`: the main twin prompt loop.  `path`, `range_desc` and the
`once` notice only affect printed output; `twins` is consulted for its
length (the selection bound) and for listing. -/
def prompt_twins (twins : List TwinInfo) :
    List (List Char) → TwinChoice × List (List Char)
  | [] => (.quit, [])
  | line :: rest =>
    match lowerFirst line with
    | Option.none => prompt_twins twins rest
    | Option.some c =>
      if c = 'l' then prompt_twins twins rest
      else if c = 'a' then (.all, rest)
      else if c = 'n' then (.none, rest)
      else if c = 'q' then (.quit, rest)
      else if c = 's' then
        match prompt_selection twins.length rest with
        | (Option.some sel, rest') => (.some sel, rest')
        | (Option.none, rest') => (.none, rest')
      else prompt_twins twins rest

/-- `prompt_collision(input, path, keep_name, once)` from `interact.rs`:
the collision prompt loop (`path`, `keep_name` and the `once` notice only
affect printed output). -/
def prompt_collision :
    List (List Char) → CollisionChoice × List (List Char)
  | [] => (.quit, [])
  | line :: rest =>
    match lowerFirst line with
    | Option.none => prompt_collision rest
    | Option.some c =>
      if c = 'o' then (.overwrite, rest)
      else if c = 'k' then (.keepBoth, rest)
      else if c = 'n' then (.none, rest)
      else if c = 'q' then (.quit, rest)
      else prompt_collision rest

/-! ## Restore and purge (`main.rs`, `restore_items`, `purge_items`) -/

structure TrashItem where
  name : List Char
  originalPath : List Char
  timeDeleted : Int
deriving DecidableEq, Repr

/-- Observable calls made to the external trash store, plus prompt events.
`promptTwin` is never emitted by the source's `restore_items`; the
constructor exists so that claims about twin prompting are statable over
the trace. -/
inductive StoreEffect
  | restoreAll (items : List TrashItem)
  | purgeAll (items : List TrashItem)
  | promptTwin (path : List Char) (members : List TrashItem)
deriving DecidableEq, Repr

def StoreEffect.isPromptTwin : StoreEffect → Bool
  | .promptTwin _ _ => true
  | _ => false

/-- The text the matcher is applied to, selected by the match target
(`PatternTarget` in the source). -/
def haystackOf (t : MatchTarget) (it : TrashItem) : List Char :=
  match t with
  | .name => it.name
  | .path => it.originalPath

/-- The filter both `restore_items` and `purge_items` apply to `list()`. -/
def matchingItems (m : CompiledMatcher) (t : MatchTarget)
    (items : List TrashItem) : List TrashItem :=
  items.filter (fun it => m.is_match (haystackOf t it))

/-- `path_counts` lookup: how many items share this original path. -/
def pathCount (items : List TrashItem) (p : List Char) : Nat :=
  (items.filter (fun it => it.originalPath == p)).length

/-- The loop of `print_items`: `seen` holds the already-printed items (the
`seen` map's count for a path is the number of prior items with it). -/
def print_items_go (fmt : Int → List Char) (all : List TrashItem)
    (pre : List Char) : List TrashItem → List TrashItem → List (List Char)
  | _, [] => []
  | seen, it :: rest =>
    let total := pathCount all it.originalPath
    let line :=
      if 1 < total then
        pre ++ " (".toList ++
          natToDecimal (pathCount seen it.originalPath + 1) ++ "/".toList ++
          natToDecimal total ++ ", ".toList ++ fmt it.timeDeleted ++
          "): ".toList ++ it.originalPath
      else pre ++ ": ".toList ++ it.originalPath
    line :: print_items_go fmt all pre (seen ++ [it]) rest

/-- `print_items(items, prefix)` from `main.rs`, with `format_timestamp`
(the external chrono crate) abstracted as `fmt`. -/
def print_items (fmt : Int → List Char) (items : List TrashItem)
    (pre : List Char) : List (List Char) :=
  print_items_go fmt items pre [] items

def noMatchLine (pattern : List Char) : List Char :=
  "No items matching '".toList ++ pattern ++ "' found in trash.".toList

/-- `restore_items(pattern, matcher, target, dry_run)` from `main.rs`, with
the store's `list()` result passed in as `items`: filter, print each match
(prefix "would restore" when dry-run, else "Restoring"), and — unless
dry-run — call `restore_all` once on the whole matching batch.  Returns
the printed lines and the store-effect trace.  No prompting occurs. -/
def restore_items (fmt : Int → List Char) (pattern : List Char)
    (m : CompiledMatcher) (t : MatchTarget) (dry_run : Bool)
    (items : List TrashItem) : List (List Char) × List StoreEffect :=
  let matching := matchingItems m t items
  if matching.isEmpty then ([noMatchLine pattern], [])
  else
    let pre := if dry_run then "would restore".toList else "Restoring".toList
    let lines := print_items fmt matching pre
    if dry_run then (lines, [])
    else (lines ++ ["Restored item(s).".toList], [.restoreAll matching])

/-- `purge_items(pattern, matcher, target, dry_run)` from `main.rs`:
identical shape, with "would purge"/"Purging" and `purge_all`. -/
def purge_items (fmt : Int → List Char) (pattern : List Char)
    (m : CompiledMatcher) (t : MatchTarget) (dry_run : Bool)
    (items : List TrashItem) : List (List Char) × List StoreEffect :=
  let matching := matchingItems m t items
  if matching.isEmpty then ([noMatchLine pattern], [])
  else
    let pre := if dry_run then "would purge".toList else "Purging".toList
    let lines := print_items fmt matching pre
    if dry_run then (lines, [])
    else (lines ++ ["Permanently deleted item(s).".toList], [.purgeAll matching])

/-! ## Decide-once resolver

Modelled from the spec: the caller-side "decide once, apply to all"
resolver loop is not under `src/` — the `once` flag of `prompt_twins` and
`prompt_collision` only prints the corresponding notice, and `restore_items`
does not drive the prompts at all.  Spec sections 4.4 and 9 describe the
loop: two optional cached decisions, one per conflict kind, threaded
through the resolver calls; when the caller marks the flow `once`, the
first resolution obtained for a kind is cached and auto-applied to every
later conflict of the same kind without re-prompting, the two kinds cached
independently. -/

inductive Conflict
  | twin (path : List Char) (twins : List TwinInfo)
  | collision (path : List Char) (keepName : List Char)

inductive Resolution
  | twin (c : TwinChoice)
  | collision (c : CollisionChoice)
deriving DecidableEq, Repr

structure ResolverState where
  input : List (List Char)
  twinCache : Option TwinChoice
  collisionCache : Option CollisionChoice
deriving DecidableEq, Repr

/-- Modelled from the spec: resolve a sequence of conflicts in order,
prompting through the source's `prompt_twins`/`prompt_collision`, and with
`once` set caching the first resolution per kind and auto-applying it to
later conflicts of that kind without touching the input stream. -/
def resolveConflicts (once : Bool) :
    List Conflict → ResolverState → List Resolution × ResolverState
  | [], st => ([], st)
  | .twin _ twins :: rest, st =>
    match once, st.twinCache with
    | true, Option.some c =>
      let p := resolveConflicts once rest st
      (.twin c :: p.1, p.2)
    | _, _ =>
      let pr := prompt_twins twins st.input
      let st1 : ResolverState :=
        { input := pr.2,
          twinCache := if once then Option.some pr.1 else st.twinCache,
          collisionCache := st.collisionCache }
      let p := resolveConflicts once rest st1
      (.twin pr.1 :: p.1, p.2)
  | .collision _ _ :: rest, st =>
    match once, st.collisionCache with
    | true, Option.some c =>
      let p := resolveConflicts once rest st
      (.collision c :: p.1, p.2)
    | _, _ =>
      let pr := prompt_collision st.input
      let st1 : ResolverState :=
        { input := pr.2,
          twinCache := st.twinCache,
          collisionCache := if once then Option.some pr.1 else st.collisionCache }
      let p := resolveConflicts once rest st1
      (.collision pr.1 :: p.1, p.2)

/-- The twin decision a resolution carries, if it is one. -/
def twinResOf : Resolution → Option TwinChoice
  | .twin c => Option.some c
  | _ => Option.none

def collResOf : Resolution → Option CollisionChoice
  | .collision c => Option.some c
  | _ => Option.none

def Conflict.isTwin : Conflict → Bool
  | .twin _ _ => true
  | _ => false

theorem mem_dedupAdj : ∀ {l : List Nat} {x : Nat}, x ∈ dedupAdj l ↔ x ∈ l := by
  intro l
  induction l with
  | nil => intro x; simp [dedupAdj]
  | cons a t ih =>
    intro x
    cases t with
    | nil => simp [dedupAdj]
    | cons b t2 =>
      by_cases h : a = b
      · subst h
        simp only [dedupAdj, beq_self_eq_true, if_true]
        rw [ih]
        simp [List.mem_cons]
      · have hne : ¬((a == b) = true) := by simp [h]
        simp only [dedupAdj, if_neg hne]
        simp [List.mem_cons, ih]

theorem sorted_lt_dedupAdj :
    ∀ {l : List Nat}, List.Sorted (· ≤ ·) l → List.Sorted (· < ·) (dedupAdj l) := by
  intro l
  induction l with
  | nil => intro _; simp [dedupAdj]
  | cons a t ih =>
    intro hs
    cases t with
    | nil => simp [dedupAdj]
    | cons b t2 =>
      rw [List.sorted_cons] at hs
      obtain ⟨hall, hrest⟩ := hs
      by_cases h : a = b
      · subst h
        simp only [dedupAdj, beq_self_eq_true, if_true]
        exact ih hrest
      · have hne : ¬((a == b) = true) := by simp [h]
        simp only [dedupAdj, if_neg hne]
        rw [List.sorted_cons]
        refine ⟨?_, ih hrest⟩
        intro x hx
        rw [mem_dedupAdj] at hx
        have hax : a ≤ x := hall x hx
        rcases List.mem_cons.mp hx with rfl | hx2
        · omega
        · have hbx : b ≤ x := by
            rw [List.sorted_cons] at hrest
            exact hrest.1 x hx2
          have hab : a ≤ b := hall b (by simp)
          omega

theorem rangePush_ok_iff {maxv : Nat} :
    ∀ {is acc res : List Nat},
      rangePush maxv is acc = .ok res ↔
        ((∀ i ∈ is, 1 ≤ i ∧ i ≤ maxv) ∧ res = acc ++ is) := by
  intro is
  induction is with
  | nil => intro acc res; simp [rangePush, eq_comm]
  | cons i is ih =>
    intro acc res
    by_cases h : (i < 1 || maxv < i) = true
    · unfold rangePush
      rw [if_pos h]
      constructor
      · intro hc; cases hc
      · rintro ⟨hall, -⟩
        have := hall i (by simp)
        simp only [Bool.or_eq_true, decide_eq_true_eq] at h
        omega
    · unfold rangePush
      rw [if_neg h, ih]
      simp only [Bool.or_eq_true, decide_eq_true_eq, not_or, not_lt] at h
      constructor
      · rintro ⟨hall, rfl⟩
        refine ⟨?_, by simp⟩
        intro j hj
        rcases List.mem_cons.mp hj with rfl | hj2
        · omega
        · exact hall j hj2
      · rintro ⟨hall, rfl⟩
        refine ⟨fun j hj => hall j (by simp [hj]), by simp⟩
theorem parseSelPart_ok_iff {maxv : Nat} {acc : List Nat} {part : List Char}
    {res : List Nat} :
    parseSelPart maxv acc part = .ok res ↔
      (selTokenOK maxv part = true ∧ res = acc ++ selTokenVals part) := by
  unfold parseSelPart selTokenOK selTokenVals
  by_cases hemp : (trimChars part).isEmpty
  · simp [hemp, eq_comm]
  · simp only [hemp, if_false, Bool.false_or]
    cases hsp : splitOnce '-' (trimChars part) with
    | some ab =>
      obtain ⟨a, b⟩ := ab
      simp only [hsp]
      cases ha : parseUsize (trimChars a) with
      | none => simp [ha]
      | some s =>
        simp only [ha]
        cases hb : parseUsize (trimChars b) with
        | none => simp [hb]
        | some e =>
          simp only [hb]
          simp only [Bool.false_eq_true, if_false]
          by_cases hlt : e < s
          · rw [if_pos hlt]
            constructor
            · intro hc; cases hc
            · rintro ⟨hok, -⟩
              simp only [Bool.and_eq_true, decide_eq_true_eq] at hok
              omega
          · rw [if_neg hlt, rangePush_ok_iff]
            simp only [not_lt] at hlt
            constructor
            · rintro ⟨hall, rfl⟩
              refine ⟨?_, rfl⟩
              have h1 := hall s (by rw [List.mem_range'_1]; omega)
              have h2 := hall e (by rw [List.mem_range'_1]; omega)
              simp only [Bool.and_eq_true, decide_eq_true_eq]
              omega
            · rintro ⟨hok, rfl⟩
              simp only [Bool.and_eq_true, decide_eq_true_eq] at hok
              refine ⟨?_, rfl⟩
              intro j hj
              rw [List.mem_range'_1] at hj
              omega
    | none =>
      simp only [hsp]
      cases hn : parseUsize (trimChars part) with
      | none => simp [hn]
      | some n =>
        simp only [hn]
        by_cases hout : (n < 1 || maxv < n) = true
        · rw [if_pos hout]
          constructor
          · intro hc; cases hc
          · rintro ⟨hok, -⟩
            simp only [Bool.and_eq_true, decide_eq_true_eq] at hok
            simp only [Bool.or_eq_true, decide_eq_true_eq] at hout
            omega
        · rw [if_neg hout]
          simp only [Bool.or_eq_true, decide_eq_true_eq, not_or, not_lt] at hout
          constructor
          · intro hc
            cases hc
            refine ⟨?_, rfl⟩
            simp only [Bool.and_eq_true, decide_eq_true_eq]
            omega
          · rintro ⟨-, rfl⟩
            rfl
theorem parseSelParts_ok_iff {maxv : Nat} :
    ∀ {parts : List (List Char)} {acc res : List Nat},
      parseSelParts maxv parts acc = .ok res ↔
        ((∀ p ∈ parts, selTokenOK maxv p = true) ∧
          res = acc ++ parts.flatMap selTokenVals) := by
  intro parts
  induction parts with
  | nil =>
    intro acc res
    have hnil : parseSelParts maxv [] acc = .ok acc := rfl
    rw [hnil, List.flatMap_nil, List.append_nil]
    constructor
    · intro h
      injection h with h
      exact ⟨fun p hp => absurd hp (List.not_mem_nil p), h.symm⟩
    · rintro ⟨-, rfl⟩
      rfl
  | cons p ps ih =>
    intro acc res
    cases hp : parseSelPart maxv acc p with
    | ok acc' =>
      simp only [parseSelParts, hp, ih]
      obtain ⟨hok, rfl⟩ := parseSelPart_ok_iff.mp hp
      constructor
      · rintro ⟨hall, rfl⟩
        refine ⟨?_, by simp [List.flatMap_cons, List.append_assoc]⟩
        intro q hq
        rcases List.mem_cons.mp hq with rfl | h2
        · exact hok
        · exact hall q h2
      · rintro ⟨hall, rfl⟩
        exact ⟨fun q hq => hall q (List.mem_cons_of_mem p hq),
          by simp [List.flatMap_cons, List.append_assoc]⟩
    | error e =>
      simp only [parseSelParts, hp]
      constructor
      · intro hc; cases hc
      · rintro ⟨hall, -⟩
        have hok := hall p (by simp)
        have hcontra : parseSelPart maxv acc p = .ok (acc ++ selTokenVals p) :=
          parseSelPart_ok_iff.mpr ⟨hok, rfl⟩
        rw [hp] at hcontra
        cases hcontra

theorem selTokenVals_bounds {maxv : Nat} {part : List Char}
    (h : selTokenOK maxv part = true) :
    ∀ x ∈ selTokenVals part, 1 ≤ x ∧ x ≤ maxv := by
  unfold selTokenOK at h
  unfold selTokenVals
  by_cases hemp : (trimChars part).isEmpty
  · simp [hemp]
  · rw [Bool.not_eq_true] at hemp
    simp only [hemp, Bool.false_eq_true, if_false, Bool.false_or] at h ⊢
    cases hsp : splitOnce '-' (trimChars part) with
    | some ab =>
      obtain ⟨a, b⟩ := ab
      simp only [hsp] at h ⊢
      cases ha : parseUsize (trimChars a) with
      | none => simp only [ha] at h; exact Bool.noConfusion h
      | some s =>
        simp only [ha] at h ⊢
        cases hb : parseUsize (trimChars b) with
        | none => simp only [hb] at h; exact Bool.noConfusion h
        | some e =>
          simp only [hb] at h ⊢
          simp only [Bool.and_eq_true, decide_eq_true_eq] at h
          intro x hx
          rw [List.mem_range'_1] at hx
          omega
    | none =>
      simp only [hsp] at h ⊢
      cases hn : parseUsize (trimChars part) with
      | none => simp only [hn] at h; exact Bool.noConfusion h
      | some n =>
        simp only [hn] at h ⊢
        simp only [Bool.and_eq_true, decide_eq_true_eq] at h
        intro x hx
        rcases List.mem_singleton.mp hx with rfl
        omega

theorem parse_selection_ok_char {input : List Char} {maxv : Nat} :
    exceptOk (parse_selection input maxv) =
      (input.splitOn ',').all (fun p => selTokenOK maxv p) := by
  unfold parse_selection
  cases hp : parseSelParts maxv (input.splitOn ',') [] with
  | ok r =>
    obtain ⟨hall, -⟩ := parseSelParts_ok_iff.mp hp
    simp only [exceptOk]
    exact (List.all_eq_true.mpr hall).symm
  | error e =>
    simp only [exceptOk]
    by_cases hall : ∀ p ∈ input.splitOn ',', selTokenOK maxv p = true
    · exfalso
      have hcontra : parseSelParts maxv (input.splitOn ',') [] =
          .ok ([] ++ (input.splitOn ',').flatMap selTokenVals) :=
        parseSelParts_ok_iff.mpr ⟨hall, rfl⟩
      rw [hp] at hcontra
      cases hcontra
    · symm
      rw [Bool.eq_false_iff]
      intro hcon
      exact hall (List.all_eq_true.mp hcon)

theorem parse_selection_result {input : List Char} {maxv : Nat}
    {res : List Nat} (h : parse_selection input maxv = .ok res) :
    List.Sorted (· < ·) res ∧ ∀ x ∈ res, 1 ≤ x ∧ x ≤ maxv := by
  unfold parse_selection at h
  cases hp : parseSelParts maxv (input.splitOn ',') [] with
  | error e => rw [hp] at h; cases h
  | ok r =>
    rw [hp] at h
    cases h
    obtain ⟨hall, hr⟩ := parseSelParts_ok_iff.mp hp
    constructor
    · apply sorted_lt_dedupAdj
      have hs := List.sorted_insertionSort (fun a b : Nat => a ≤ b) r
      simpa [List.Sorted] using hs
    · intro x hx
      rw [mem_dedupAdj] at hx
      have hx2 : x ∈ r := (List.perm_insertionSort _ r).subset hx
      rw [hr] at hx2
      simp only [List.nil_append, List.mem_flatMap] at hx2
      obtain ⟨p, hp2, hxp⟩ := hx2
      exact selTokenVals_bounds (hall p hp2) x hxp

theorem parsePatternGo_noMod {body : List Char} (h : noModB body = true) :
    ∀ (fuel : Nat) (mt : MatchType) (full : Bool) (tg : MatchTarget),
      parsePatternGo fuel body mt full tg = ⟨body, mt, full, tg⟩ := by
  intro fuel mt full tg
  cases fuel with
  | zero => rfl
  | succ f =>
    simp only [noModB, allMods, List.all_cons, List.all_nil, Bool.and_eq_true,
      Bool.not_eq_true', Modifier.render, and_true] at h
    obtain ⟨h1, h2, h3, h4, h5, h6, h7⟩ := h
    simp only [parsePatternGo, h1, h2, h3, h4, h5, h6, h7, Bool.false_eq_true,
      if_false]

theorem parsePatternGo_step (m : Modifier) (rest : List Char) (fuel : Nat)
    (mt : MatchType) (full : Bool) (tg : MatchTarget) :
    parsePatternGo (fuel + 1) (m.render ++ rest) mt full tg =
      (fun st => parsePatternGo fuel rest st.1 st.2.1 st.2.2)
        (m.applyMod (mt, full, tg)) := by
  cases m <;>
    simp [parsePatternGo, Modifier.render, Modifier.applyMod, pfxGlob, pfxRegex,
      pfxString, pfxFull, pfxPart, pfxName, pfxPath, List.isPrefixOf]

theorem mods_length_le (mods : List Modifier) :
    mods.length ≤ (renderMods mods).length := by
  induction mods with
  | nil => simp [renderMods]
  | cons m ms ih =>
    have hm : 1 ≤ m.render.length := by
      cases m <;> simp [Modifier.render, pfxGlob, pfxRegex, pfxString, pfxFull,
        pfxPart, pfxName, pfxPath]
    simp only [renderMods, List.flatMap_cons, List.length_append,
      List.length_cons] at *
    omega

theorem parsePatternGo_mods {body : List Char} (h : noModB body = true) :
    ∀ (mods : List Modifier) (fuel : Nat) (mt : MatchType) (full : Bool)
      (tg : MatchTarget), mods.length ≤ fuel →
      parsePatternGo fuel (renderMods mods ++ body) mt full tg =
        (fun st => (⟨body, st.1, st.2.1, st.2.2⟩ : ParsedPattern))
          (foldMods mods (mt, full, tg)) := by
  intro mods
  induction mods with
  | nil =>
    intro fuel mt full tg _
    have hr : renderMods [] ++ body = body := by simp [renderMods]
    rw [hr]
    exact parsePatternGo_noMod h fuel mt full tg
  | cons m ms ih =>
    intro fuel mt full tg hlen
    cases fuel with
    | zero => simp at hlen
    | succ f =>
      have hr : renderMods (m :: ms) ++ body =
          m.render ++ (renderMods ms ++ body) := by
        simp [renderMods, List.flatMap_cons, List.append_assoc]
      rw [hr, parsePatternGo_step]
      have hfold : foldMods (m :: ms) (mt, full, tg) =
          foldMods ms (m.applyMod (mt, full, tg)) := rfl
      rw [hfold]
      obtain ⟨mt', full', tg'⟩ := m.applyMod (mt, full, tg)
      exact ih f mt' full' tg' (by simpa using Nat.le_of_succ_le_succ hlen)

theorem parse_pattern_mods {body : List Char} {mods : List Modifier}
    (h : noModB body = true) :
    parse_pattern (renderMods mods ++ body) =
      (fun st => (⟨body, st.1, st.2.1, st.2.2⟩ : ParsedPattern))
        (foldMods mods (.glob, false, .name)) := by
  unfold parse_pattern
  apply parsePatternGo_mods h
  have := mods_length_le mods
  simp only [List.length_append]
  omega

theorem foldMods_type :
    ∀ (mods : List Modifier) (st : MatchType × Bool × MatchTarget),
      (foldMods mods st).1 =
        ((mods.reverse.filterMap Modifier.typeVal).head?).getD st.1 := by
  intro mods
  induction mods with
  | nil => intro st; simp [foldMods]
  | cons m ms ih =>
    intro st
    have hstep : foldMods (m :: ms) st = foldMods ms (m.applyMod st) := rfl
    rw [hstep, ih, List.reverse_cons, List.filterMap_append, List.head?_append]
    cases hA : (ms.reverse.filterMap Modifier.typeVal).head? with
    | some v => simp
    | none =>
      obtain ⟨mt, fl, tg⟩ := st
      simp only [Option.none_or]
      cases m <;> simp [Modifier.applyMod, Modifier.typeVal]

theorem foldMods_extent :
    ∀ (mods : List Modifier) (st : MatchType × Bool × MatchTarget),
      (foldMods mods st).2.1 =
        ((mods.reverse.filterMap Modifier.extentVal).head?).getD st.2.1 := by
  intro mods
  induction mods with
  | nil => intro st; simp [foldMods]
  | cons m ms ih =>
    intro st
    have hstep : foldMods (m :: ms) st = foldMods ms (m.applyMod st) := rfl
    rw [hstep, ih, List.reverse_cons, List.filterMap_append, List.head?_append]
    cases hA : (ms.reverse.filterMap Modifier.extentVal).head? with
    | some v => simp
    | none =>
      obtain ⟨mt, fl, tg⟩ := st
      simp only [Option.none_or]
      cases m <;> simp [Modifier.applyMod, Modifier.extentVal]

theorem foldMods_target :
    ∀ (mods : List Modifier) (st : MatchType × Bool × MatchTarget),
      (foldMods mods st).2.2 =
        ((mods.reverse.filterMap Modifier.targetVal).head?).getD st.2.2 := by
  intro mods
  induction mods with
  | nil => intro st; simp [foldMods]
  | cons m ms ih =>
    intro st
    have hstep : foldMods (m :: ms) st = foldMods ms (m.applyMod st) := rfl
    rw [hstep, ih, List.reverse_cons, List.filterMap_append, List.head?_append]
    cases hA : (ms.reverse.filterMap Modifier.targetVal).head? with
    | some v => simp
    | none =>
      obtain ⟨mt, fl, tg⟩ := st
      simp only [Option.none_or]
      cases m <;> simp [Modifier.applyMod, Modifier.targetVal]

/-- C4: `parse_pattern` never fails (it is total by construction); it strips
recognized colon-prefixed modifiers left-to-right, the last occurrence per
modifier group (type, extent, target) wins, defaults are Glob/Partial/Name
when a group is absent, the unconsumed suffix is the literal pattern body,
and stacking order across different groups is irrelevant — in particular
`"full:name:foo"` and `"name:full:foo"` parse identically, and in general
two modifier stacks with the same last occurrence per group parse
identically over any body that no recognized modifier starts. -/
theorem parse_pattern_spec :
    (parse_pattern "full:name:foo".toList = parse_pattern "name:full:foo".toList) ∧
    (∀ (mods : List Modifier) (body : List Char), noModB body = true →
      parse_pattern (renderMods mods ++ body) =
        ⟨body,
          ((mods.reverse.filterMap Modifier.typeVal).head?).getD .glob,
          ((mods.reverse.filterMap Modifier.extentVal).head?).getD false,
          ((mods.reverse.filterMap Modifier.targetVal).head?).getD .name⟩) ∧
    (∀ (mods1 mods2 : List Modifier) (body : List Char), noModB body = true →
      (mods1.reverse.filterMap Modifier.typeVal).head? =
        (mods2.reverse.filterMap Modifier.typeVal).head? →
      (mods1.reverse.filterMap Modifier.extentVal).head? =
        (mods2.reverse.filterMap Modifier.extentVal).head? →
      (mods1.reverse.filterMap Modifier.targetVal).head? =
        (mods2.reverse.filterMap Modifier.targetVal).head? →
      parse_pattern (renderMods mods1 ++ body) =
        parse_pattern (renderMods mods2 ++ body)) := by
  have hbody : ∀ (mods : List Modifier) (body : List Char), noModB body = true →
      parse_pattern (renderMods mods ++ body) =
        ⟨body,
          ((mods.reverse.filterMap Modifier.typeVal).head?).getD .glob,
          ((mods.reverse.filterMap Modifier.extentVal).head?).getD false,
          ((mods.reverse.filterMap Modifier.targetVal).head?).getD .name⟩ := by
    intro mods body h
    rw [parse_pattern_mods h]
    show (⟨body, (foldMods mods (.glob, false, .name)).1,
      (foldMods mods (.glob, false, .name)).2.1,
      (foldMods mods (.glob, false, .name)).2.2⟩ : ParsedPattern) = _
    rw [foldMods_type, foldMods_extent, foldMods_target]
  refine ⟨by decide, hbody, ?_⟩
  intro mods1 mods2 body h e1 e2 e3
  rw [hbody mods1 body h, hbody mods2 body h, e1, e2, e3]

/-- Witness for `parse_pattern_spec`: the general stacking property applied
at the concrete stack `full:name:` over body `foo`. -/
theorem parse_pattern_spec_witness :
    parse_pattern (renderMods [.full, .name] ++ "foo".toList) =
      ⟨"foo".toList, .glob, true, .name⟩ := by
  have h := parse_pattern_spec.2.1 [.full, .name] "foo".toList (by decide)
  simpa using h


theorem natLexOf {a b c d : Nat}
    (h : a < c ∨ (a = c ∧ b < d)) :
    Prod.Lex (fun x y => x < y) (fun x y => x < y) (a, b) (c, d) := by
  rcases h with h | ⟨rfl, h⟩
  · exact Prod.Lex.left _ _ h
  · exact Prod.Lex.right _ h

theorem flatMap_const_nil {α β : Type} (L : List α) :
    L.flatMap (fun _ => ([] : List β)) = [] := by
  induction L with
  | nil => rfl
  | cons a t ih => simp [List.flatMap_cons, ih]

theorem matchLensF_zero_re (f : Nat) (s : List Char) :
    matchLensF f .zero s = [] := by
  cases f <;> rfl

theorem matchLensF_eps (f : Nat) (s : List Char) :
    matchLensF f .epsilon s = [0] := by
  cases f <;> rfl

theorem matchLensF_char (f : Nat) (c : Char) (s : List Char) :
    matchLensF f (.char c) s =
      match s with
      | [] => []
      | c' :: _ => if c = c' then [1] else [] := by
  cases f <;> cases s <;> rfl

theorem matchLensF_plus (f : Nat) (r1 r2 : RE) (s : List Char) :
    matchLensF f (.plus r1 r2) s = matchLensF f r1 s ++ matchLensF f r2 s := by
  cases f <;> rfl

theorem matchLensF_comp (f : Nat) (r1 r2 : RE) (s : List Char) :
    matchLensF f (.comp r1 r2) s =
      (matchLensF f r1 s).flatMap
        (fun l => (matchLensF f r2 (s.drop l)).map (fun l2 => l + l2)) := by
  cases f <;> rfl

theorem matchLensF_star_zero (r : RE) (s : List Char) :
    matchLensF 0 (.star r) s = [0] := by
  show matchLensAux (fun _ _ => []) (.star r) s = [0]
  simp only [matchLensAux, List.map_nil, flatMap_const_nil, List.nil_append]

theorem matchLensF_star_succ (f : Nat) (r : RE) (s : List Char) :
    matchLensF (f + 1) (.star r) s =
      ((matchLensF (f + 1) r s).filter (fun l => decide (0 < l))).flatMap
        (fun l => (matchLensF f (.star r) (s.drop l)).map (fun l2 => l + l2))
        ++ [0] := rfl

/-- Adequacy of the priority-ordered match-length enumeration: provided the
fuel covers the string, `l` is listed exactly when the length-`l` prefix of
`s` matches `r` (with `rmatch`, Mathlib's decidable language membership). -/
theorem matchLensF_adequate (f : Nat) (r : RE) (s : List Char)
    (hf : s.length ≤ f) (l : Nat) :
    l ∈ matchLensF f r s ↔ (l ≤ s.length ∧ r.rmatch (s.take l) = true) := by
  cases r with
  | zero =>
    rw [matchLensF_zero_re]
    simp [RegularExpression.zero_def, RegularExpression.zero_rmatch]
  | epsilon =>
    rw [matchLensF_eps]
    constructor
    · intro h
      rcases List.mem_singleton.mp h with rfl
      refine ⟨by omega, ?_⟩
      rw [RegularExpression.one_def, RegularExpression.one_rmatch_iff]
      simp
    · rintro ⟨hl, hm⟩
      rw [RegularExpression.one_def, RegularExpression.one_rmatch_iff] at hm
      rcases List.take_eq_nil_iff.mp hm with rfl | rfl
      · simp
      · simp only [List.length_nil] at hl
        simp [Nat.le_zero.mp hl]
  | char c =>
    rw [matchLensF_char]
    cases s with
    | nil =>
      constructor
      · intro h; cases h
      · rintro ⟨hl, hm⟩
        rw [RegularExpression.char_rmatch_iff] at hm
        simp only [List.length_nil, Nat.le_zero] at hl
        subst hl
        cases hm
    | cons c' s' =>
      by_cases hc : c = c'
      · subst hc
        simp only [if_pos rfl]
        constructor
        · intro h
          rcases List.mem_singleton.mp h with rfl
          refine ⟨by simp, ?_⟩
          rw [RegularExpression.char_rmatch_iff]
          rfl
        · rintro ⟨hl, hm⟩
          rw [RegularExpression.char_rmatch_iff] at hm
          cases l with
          | zero => cases hm
          | succ l0 =>
            rw [List.take_succ_cons] at hm
            have h0 : List.take l0 s' = [] := by
              have := List.cons.inj hm
              exact this.2
            rcases List.take_eq_nil_iff.mp h0 with rfl | rfl
            · simp
            · simp only [List.length_cons, List.length_nil] at hl
              have : l0 = 0 := by omega
              subst this
              simp
      · simp only [if_neg hc]
        constructor
        · intro h; cases h
        · rintro ⟨hl, hm⟩
          rw [RegularExpression.char_rmatch_iff] at hm
          cases l with
          | zero => cases hm
          | succ l0 =>
            rw [List.take_succ_cons] at hm
            have := (List.cons.inj hm).1
            exact absurd this.symm hc
  | plus r1 r2 =>
    rw [matchLensF_plus, List.mem_append,
      matchLensF_adequate f r1 s hf l, matchLensF_adequate f r2 s hf l,
      RegularExpression.plus_def, RegularExpression.add_rmatch_iff]
    tauto
  | comp r1 r2 =>
    rw [matchLensF_comp]
    constructor
    · intro h
      rw [List.mem_flatMap] at h
      obtain ⟨l1, hl1, h2⟩ := h
      rw [List.mem_map] at h2
      obtain ⟨l2, hl2, rfl⟩ := h2
      obtain ⟨hb1, hm1⟩ := (matchLensF_adequate f r1 s hf l1).mp hl1
      have hdlen : (s.drop l1).length ≤ f := by
        rw [List.length_drop]; omega
      obtain ⟨hb2, hm2⟩ := (matchLensF_adequate f r2 (s.drop l1) hdlen l2).mp hl2
      rw [List.length_drop] at hb2
      refine ⟨by omega, ?_⟩
      rw [RegularExpression.comp_def, RegularExpression.mul_rmatch_iff]
      exact ⟨s.take l1, (s.drop l1).take l2, List.take_add s l1 l2, hm1, hm2⟩
    · rintro ⟨hl, hm⟩
      rw [RegularExpression.comp_def, RegularExpression.mul_rmatch_iff] at hm
      obtain ⟨t, u, htu, hm1, hm2⟩ := hm
      have hlen : (s.take l).length = l := by
        rw [List.length_take]; omega
      have hlsum : t.length + u.length = l := by
        have := congrArg List.length htu
        rw [hlen, List.length_append] at this
        omega
      have ht : t = s.take t.length := by
        have h1 := congrArg (List.take t.length) htu
        rw [List.take_left, List.take_take, Nat.min_eq_left (by omega)] at h1
        exact h1.symm
      have hu : u = (s.drop t.length).take u.length := by
        have h1 := congrArg (List.drop t.length) htu
        rw [List.drop_left, List.drop_take] at h1
        have h2 : l - t.length = u.length := by omega
        rw [h2] at h1
        exact h1.symm
      rw [List.mem_flatMap]
      refine ⟨t.length, ?_, ?_⟩
      · exact (matchLensF_adequate f r1 s hf t.length).mpr
          ⟨by omega, by rw [← ht]; exact hm1⟩
      · rw [List.mem_map]
        refine ⟨u.length, ?_, by omega⟩
        have hdlen : (s.drop t.length).length ≤ f := by
          rw [List.length_drop]; omega
        exact (matchLensF_adequate f r2 (s.drop t.length) hdlen u.length).mpr
          ⟨by rw [List.length_drop]; omega, by rw [← hu]; exact hm2⟩
  | star r =>
    cases f with
    | zero =>
      have hs : s = [] := List.length_eq_zero.mp (by omega)
      subst hs
      rw [matchLensF_star_zero]
      constructor
      · intro h
        rcases List.mem_singleton.mp h with rfl
        refine ⟨by simp, ?_⟩
        exact (RegularExpression.star_rmatch_iff r _).mpr ⟨[], by simp, by simp⟩
      · rintro ⟨hl, -⟩
        simp only [List.length_nil, Nat.le_zero] at hl
        subst hl
        simp
    | succ f0 =>
      rw [matchLensF_star_succ, List.mem_append]
      constructor
      · intro h
        rcases h with h | h
        · rw [List.mem_flatMap] at h
          obtain ⟨l1, hl1, h2⟩ := h
          rw [List.mem_filter] at hl1
          obtain ⟨hl1m, hl1pos⟩ := hl1
          rw [decide_eq_true_eq] at hl1pos
          rw [List.mem_map] at h2
          obtain ⟨l2, hl2, rfl⟩ := h2
          obtain ⟨hb1, hm1⟩ := (matchLensF_adequate (f0 + 1) r s hf l1).mp hl1m
          have hdlen : (s.drop l1).length ≤ f0 := by
            rw [List.length_drop]; omega
          obtain ⟨hb2, hm2⟩ :=
            (matchLensF_adequate f0 (.star r) (s.drop l1) hdlen l2).mp hl2
          rw [List.length_drop] at hb2
          refine ⟨by omega, ?_⟩
          rw [RegularExpression.star_rmatch_iff] at hm2 ⊢
          obtain ⟨S, hSf, hSa⟩ := hm2
          refine ⟨s.take l1 :: S, ?_, ?_⟩
          · rw [List.flatten_cons, ← hSf, ← List.take_add]
          · intro t ht
            rcases List.mem_cons.mp ht with rfl | ht2
            · refine ⟨?_, hm1⟩
              intro hnil
              rcases List.take_eq_nil_iff.mp hnil with h0 | h0
              · omega
              · rw [h0] at hb1
                simp only [List.length_nil] at hb1
                omega
            · exact hSa t ht2
        · rcases List.mem_singleton.mp h with rfl
          refine ⟨by omega, ?_⟩
          rw [List.take_zero]
          exact (RegularExpression.star_rmatch_iff r _).mpr ⟨[], by simp, by simp⟩
      · rintro ⟨hl, hm⟩
        rw [RegularExpression.star_rmatch_iff] at hm
        obtain ⟨S, hSf, hSa⟩ := hm
        cases S with
        | nil =>
          right
          simp only [List.flatten_nil] at hSf
          rcases List.take_eq_nil_iff.mp hSf with rfl | rfl
          · simp
          · simp only [List.length_nil, Nat.le_zero] at hl
            simp [hl]
        | cons t S' =>
          left
          obtain ⟨htne, htm⟩ := hSa t (by simp)
          have hlen : (s.take l).length = l := by
            rw [List.length_take]; omega
          rw [List.flatten_cons] at hSf
          have hlsum : t.length + S'.flatten.length = l := by
            have := congrArg List.length hSf
            rw [hlen, List.length_append] at this
            omega
          have htpos : 0 < t.length := List.length_pos.mpr htne
          have ht : t = s.take t.length := by
            have h1 := congrArg (List.take t.length) hSf
            rw [List.take_left, List.take_take, Nat.min_eq_left (by omega)] at h1
            exact h1.symm
          have hrest : S'.flatten = (s.drop t.length).take (l - t.length) := by
            have h1 := congrArg (List.drop t.length) hSf
            rw [List.drop_left, List.drop_take] at h1
            exact h1.symm
          rw [List.mem_flatMap]
          refine ⟨t.length, ?_, ?_⟩
          · rw [List.mem_filter]
            refine ⟨(matchLensF_adequate (f0 + 1) r s hf t.length).mpr
              ⟨by omega, by rw [← ht]; exact htm⟩, by simpa using htpos⟩
          · rw [List.mem_map]
            refine ⟨l - t.length, ?_, by omega⟩
            have hdlen : (s.drop t.length).length ≤ f0 := by
              rw [List.length_drop]; omega
            refine (matchLensF_adequate f0 (.star r) (s.drop t.length) hdlen _).mpr
              ⟨by rw [List.length_drop]; omega, ?_⟩
            rw [← hrest]
            exact (RegularExpression.star_rmatch_iff r _).mpr
              ⟨S', rfl, fun t' ht' => hSa t' (by simp [ht'])⟩
  termination_by (f, sizeOf r)
  decreasing_by
    all_goals simp_wf
    all_goals apply natLexOf
    all_goals first
      | omega
      | (refine Or.inr ⟨rfl, ?_⟩
         simp only [← RegularExpression.plus_def, ← RegularExpression.comp_def,
           RegularExpression.plus.sizeOf_spec, RegularExpression.comp.sizeOf_spec]
         omega)

theorem matchLens_adequate (r : RE) (s : List Char) (l : Nat) :
    l ∈ matchLens r s ↔ (l ≤ s.length ∧ r.rmatch (s.take l) = true) :=
  matchLensF_adequate s.length r s le_rfl l

/-- `rfind` finds something exactly when some substring matches. -/
theorem rfind_isSome_iff (r : RE) (h : List Char) :
    (rfind r h).isSome = true ↔
      ∃ i l, i + l ≤ h.length ∧ r.rmatch ((h.drop i).take l) = true := by
  unfold rfind
  rw [Option.isSome_iff_ne_none, ne_eq, List.findSome?_eq_none_iff]
  push_neg
  constructor
  · rintro ⟨i, hi, hne⟩
    rw [List.mem_range] at hi
    cases hl : (matchLens r (h.drop i)).head? with
    | none => rw [hl] at hne; simp at hne
    | some l =>
      have hmem : l ∈ matchLens r (h.drop i) := List.mem_of_mem_head? (Option.mem_def.mpr hl)
      obtain ⟨hb, hm⟩ := (matchLens_adequate r (h.drop i) l).mp hmem
      rw [List.length_drop] at hb
      exact ⟨i, l, by omega, hm⟩
  · rintro ⟨i, l, hil, hm⟩
    refine ⟨i, by rw [List.mem_range]; omega, ?_⟩
    have hmem : l ∈ matchLens r (h.drop i) :=
      (matchLens_adequate r (h.drop i) l).mpr
        ⟨by rw [List.length_drop]; omega, hm⟩
    cases hl : (matchLens r (h.drop i)).head? with
    | none =>
      rw [List.head?_eq_none_iff] at hl
      rw [hl] at hmem
      cases hmem
    | some l0 => simp [hl]

/-- Full-extent regex matching holds exactly when the priority-first match
at position 0 spans the whole haystack. -/
theorem is_match_regex_full_iff (r : RE) (h : List Char) :
    (CompiledMatcher.regex r true).is_match h = true ↔
      (matchLens r h).head? = some h.length := by
  have hsplit : List.range (h.length + 1) = 0 :: List.range' 1 h.length := by
    rw [List.range_eq_range', List.range'_succ]
  have hr : rfind r h =
      match (matchLens r h).head? with
      | some l => some (0, l)
      | none =>
        (List.range' 1 h.length).findSome? (fun i =>
          match (matchLens r (h.drop i)).head? with
          | some l => some (i, i + l)
          | none => none) := by
    unfold rfind
    rw [hsplit, List.findSome?_cons]
    rw [List.drop_zero]
    cases (matchLens r h).head? with
    | some l => simp
    | none => rfl
  show (match rfind r h with
    | some (s, e) => decide (s = 0 ∧ e = h.length)
    | none => false) = true ↔ _
  rw [hr]
  cases hl : (matchLens r h).head? with
  | some l => simp
  | none =>
    cases hf : (List.range' 1 h.length).findSome? (fun i =>
        match (matchLens r (h.drop i)).head? with
        | some l => some (i, i + l)
        | none => none) with
    | none => simp
    | some se =>
      obtain ⟨s, e⟩ := se
      obtain ⟨i, hi, hieq⟩ := List.exists_of_findSome?_eq_some hf
      rw [List.mem_range'_1] at hi
      have hs : s = i ∧ ∃ l, e = i + l := by
        cases hli : (matchLens r (h.drop i)).head? with
        | none => rw [hli] at hieq; cases hieq
        | some l =>
          rw [hli] at hieq
          injection hieq with hieq
          have h1 : i = s := congrArg Prod.fst hieq
          have h2 : i + l = e := congrArg Prod.snd hieq
          exact ⟨h1.symm, l, h2.symm⟩
      obtain ⟨rfl, l0, rfl⟩ := hs
      simp only [decide_eq_true_eq]
      constructor
      · rintro ⟨h0, -⟩
        omega
      · intro hc
        cases hc

theorem containsSub_substring_spec (hay pat : List Char) :
    containsSub hay pat = true ↔ pat <:+: hay := by
  induction hay with
  | nil =>
    show (pat.isPrefixOf [] ||
      match ([] : List Char) with
      | [] => false
      | _ :: t => containsSub t pat) = true ↔ _
    simp [List.isPrefixOf_iff_prefix, List.prefix_nil, List.infix_nil]
  | cons a t ih =>
    show (pat.isPrefixOf (a :: t) || containsSub t pat) = true ↔ _
    rw [Bool.or_eq_true, List.isPrefixOf_iff_prefix, ih]
    exact (List.infix_cons_iff).symm

/-- C6: the literal (string) matcher: Full extent is exact equality,
Partial extent is substring containment; the empty pattern matches every
haystack in Partial mode and only the empty haystack in Full mode. -/
theorem literal_matcher_spec :
    (∀ (s h : List Char),
      ((CompiledMatcher.string s true).is_match h = true ↔ h = s) ∧
      ((CompiledMatcher.string s false).is_match h = true ↔
        ∃ pre suf, pre ++ s ++ suf = h)) ∧
    (∀ h : List Char,
      (CompiledMatcher.string [] false).is_match h = true ∧
      ((CompiledMatcher.string [] true).is_match h = true ↔ h = [])) := by
  have hfull : ∀ (s h : List Char),
      (CompiledMatcher.string s true).is_match h = true ↔ h = s := by
    intro s h
    show (h == s) = true ↔ h = s
    exact beq_iff_eq
  have hpart : ∀ (s h : List Char),
      (CompiledMatcher.string s false).is_match h = true ↔
        ∃ pre suf, pre ++ s ++ suf = h := by
    intro s h
    show containsSub h s = true ↔ _
    rw [containsSub_substring_spec]
    exact Iff.rfl
  refine ⟨fun s h => ⟨hfull s h, hpart s h⟩, fun h => ⟨?_, hfull [] h⟩⟩
  rw [hpart [] h]
  exact ⟨[], h, by simp⟩

/-- C3 counterexample: for the regex `a|ab` and haystack `ab`, a match
spanning the entire haystack exists (the whole of `ab` matches `a|ab`), yet
Full-extent `is_match` returns false, because `find` reports the
leftmost-first match `a`, whose span (0,1) does not cover the haystack.
So "isMatch(h) is true iff some match spans the whole haystack" fails. -/
theorem regex_full_counterexample :
    RegularExpression.rmatch
        (.plus (.char 'a') (.comp (.char 'a') (.char 'b'))) "ab".toList = true ∧
    (CompiledMatcher.regex
        (.plus (.char 'a') (.comp (.char 'a') (.char 'b'))) true).is_match
        "ab".toList = false ∧
    ¬ ((CompiledMatcher.regex
        (.plus (.char 'a') (.comp (.char 'a') (.char 'b'))) true).is_match
        "ab".toList = true ↔
      RegularExpression.rmatch
        (.plus (.char 'a') (.comp (.char 'a') (.char 'b'))) "ab".toList = true) := by
  refine ⟨by decide, by decide, ?_⟩
  intro hiff
  have h1 : (CompiledMatcher.regex
      (.plus (.char 'a') (.comp (.char 'a') (.char 'b'))) true).is_match
      "ab".toList = true := hiff.mpr (by decide)
  exact absurd h1 (by decide)

/-- C3 (amended): Full-extent regex `is_match` returns true iff the
leftmost-first match that `find` reports spans the entire haystack —
equivalently, iff the first-priority match length at position 0 equals the
haystack's length; this implies that the whole haystack matches the regex
(but not conversely, see the counterexample).  Partial extent returns true
iff the regex matches somewhere in the haystack. -/
theorem regex_matcher_spec (r : RE) (h : List Char) :
    ((CompiledMatcher.regex r true).is_match h = true ↔
      (matchLens r h).head? = some h.length) ∧
    ((CompiledMatcher.regex r true).is_match h = true →
      r.rmatch h = true) ∧
    ((CompiledMatcher.regex r false).is_match h = true ↔
      ∃ i l, i + l ≤ h.length ∧ r.rmatch ((h.drop i).take l) = true) := by
  refine ⟨is_match_regex_full_iff r h, ?_, ?_⟩
  · rw [is_match_regex_full_iff r h]
    intro hl
    have hmem : h.length ∈ matchLens r h :=
      List.mem_of_mem_head? (Option.mem_def.mpr hl)
    obtain ⟨-, hm⟩ := (matchLens_adequate r h _).mp hmem
    rwa [List.take_length] at hm
  · show (rfind r h).isSome = true ↔ _
    exact rfind_isSome_iff r h

/-- Witness for `regex_matcher_spec`: the soundness implication applied to
the regex `a` and haystack `a`, where Full-extent `is_match` holds. -/
theorem regex_matcher_spec_witness :
    RegularExpression.rmatch (RegularExpression.char 'a') "a".toList = true :=
  (regex_matcher_spec (.char 'a') "a".toList).2.1 (by decide)

/-- C5: `parse_selection` succeeds exactly on comma-separated lists whose
trimmed tokens are empty (skipped), single in-range integers, or inclusive
ranges `a-b` with `a ≤ b`, with every resolved integer in `[1, max]` and
whitespace around tokens and the hyphen ignored; on success the result is
sorted ascending and deduplicated; out-of-range integers, reversed ranges
and non-numeric tokens fail.  Includes the spec's concrete examples. -/
theorem parse_selection_spec :
    (parse_selection "1,3-5,7".toList 7 = .ok [1, 3, 4, 5, 7]) ∧
    (parse_selection "1,1,2".toList 3 = .ok [1, 2]) ∧
    (parse_selection " 1 , 3 - 5 ".toList 5 = .ok [1, 3, 4, 5]) ∧
    (exceptOk (parse_selection "0".toList 5) = false) ∧
    (exceptOk (parse_selection "6".toList 5) = false) ∧
    (exceptOk (parse_selection "5-3".toList 5) = false) ∧
    (∀ (input : List Char) (maxv : Nat),
      exceptOk (parse_selection input maxv) =
        (input.splitOn ',').all (fun p => selTokenOK maxv p)) ∧
    (∀ (input : List Char) (maxv : Nat) (res : List Nat),
      parse_selection input maxv = .ok res →
        List.Sorted (· < ·) res ∧ ∀ x ∈ res, 1 ≤ x ∧ x ≤ maxv) := by
  refine ⟨by rfl, by rfl, by rfl, by rfl, by rfl, by rfl,
    fun input maxv => parse_selection_ok_char,
    fun input maxv res h => parse_selection_result h⟩

/-- Witness for `parse_selection_spec`: the success-shape conjunct applied
to the concrete parse of `"1,3-5,7"` with max 7. -/
theorem parse_selection_spec_witness :
    List.Sorted (· < ·) [1, 3, 4, 5, 7] ∧
      ∀ x ∈ [1, 3, 4, 5, 7], 1 ≤ x ∧ x ≤ 7 :=
  parse_selection_spec.2.2.2.2.2.2.2 "1,3-5,7".toList 7 [1, 3, 4, 5, 7] (by rfl)

theorem digitChar_isDigit {d : Nat} (h : d < 10) :
    (digitChar d).isDigit = true := by
  interval_cases d <;> decide

theorem natToDecimalF_digits :
    ∀ (fuel n : Nat) (c : Char), c ∈ natToDecimalF fuel n → c.isDigit = true := by
  intro fuel
  induction fuel with
  | zero => intro n c h; cases h
  | succ f ih =>
    intro n c h
    by_cases hn : n < 10
    · simp only [natToDecimalF, if_pos hn] at h
      rcases List.mem_singleton.mp h with rfl
      exact digitChar_isDigit hn
    · simp only [natToDecimalF, if_neg hn] at h
      rcases List.mem_append.mp h with h2 | h2
      · exact ih (n / 10) c h2
      · rcases List.mem_singleton.mp h2 with rfl
        exact digitChar_isDigit (Nat.mod_lt n (by omega))

theorem natToDecimal_digits {n : Nat} {c : Char} (h : c ∈ natToDecimal n) :
    c.isDigit = true :=
  natToDecimalF_digits (n + 1) n c h

theorem isDigit_ne_dot {c : Char} (h : c.isDigit = true) : c ≠ '.' := by
  intro hc
  subst hc
  cases h

/-- Decimal value of a digit string; left inverse of `natToDecimal`. -/
def decVal (l : List Char) : Nat :=
  l.foldl (fun a c => a * 10 + (c.toNat - 48)) 0

theorem digitChar_toNat {d : Nat} (h : d < 10) :
    (digitChar d).toNat = 48 + d := by
  interval_cases d <;> decide

theorem decVal_append_digit (l : List Char) (c : Char) :
    decVal (l ++ [c]) = decVal l * 10 + (c.toNat - 48) := by
  unfold decVal
  rw [List.foldl_append]
  rfl

theorem decVal_natToDecimalF :
    ∀ (fuel n : Nat), n < fuel → decVal (natToDecimalF fuel n) = n := by
  intro fuel
  induction fuel with
  | zero => intro n h; omega
  | succ f ih =>
    intro n h
    by_cases hn : n < 10
    · simp only [natToDecimalF, if_pos hn]
      show decVal [digitChar n] = n
      unfold decVal
      simp only [List.foldl_cons, List.foldl_nil]
      rw [digitChar_toNat hn]
      omega
    · simp only [natToDecimalF, if_neg hn]
      rw [decVal_append_digit, ih (n / 10) (by omega),
        digitChar_toNat (Nat.mod_lt n (by omega))]
      omega

theorem natToDecimal_inj {a b : Nat} (h : natToDecimal a = natToDecimal b) :
    a = b := by
  have ha := decVal_natToDecimalF (a + 1) a (by omega)
  have hb := decVal_natToDecimalF (b + 1) b (by omega)
  unfold natToDecimal at h
  rw [h] at ha
  rw [hb] at ha
  omega

theorem dotfree_cancel :
    ∀ {a b t u : List Char}, (∀ c ∈ a, c ≠ '.') → (∀ c ∈ b, c ≠ '.') →
      a ++ '.' :: t = b ++ '.' :: u → a = b ∧ t = u := by
  intro a
  induction a with
  | nil =>
    intro b t u _ hb h
    cases b with
    | nil =>
      simp only [List.nil_append] at h
      exact ⟨rfl, (List.cons.inj h).2⟩
    | cons y bs =>
      simp only [List.nil_append, List.cons_append] at h
      have h1 := (List.cons.inj h).1
      exact absurd h1.symm (hb y (by simp))
  | cons x as ih =>
    intro b t u ha hb h
    cases b with
    | nil =>
      simp only [List.cons_append, List.nil_append] at h
      have h1 := (List.cons.inj h).1
      exact absurd h1 (ha x (by simp))
    | cons y bs =>
      simp only [List.cons_append] at h
      obtain ⟨h1, h2⟩ := List.cons.inj h
      obtain ⟨h3, h4⟩ := ih (fun c hc => ha c (by simp [hc]))
        (fun c hc => hb c (by simp [hc])) h2
      subst h1 h3 h4
      exact ⟨rfl, rfl⟩

/-- `untrash_name name` is injective in the index, which justifies
modelling the disk probes of `find_untrash_range` by a set of indices. -/
theorem untrash_name_inj (name : List Char) {a b : Nat}
    (h : untrash_name name a = untrash_name name b) : a = b := by
  unfold untrash_name at h
  cases hsp : lastDotSplit name with
  | mk stem extOpt =>
    rw [hsp] at h
    cases extOpt with
    | some ext =>
      simp only at h
      rw [List.append_assoc, List.append_assoc,
        List.append_assoc, List.append_assoc] at h
      have h2 := List.append_cancel_left h
      have h3 := List.append_cancel_left h2
      exact natToDecimal_inj
        (dotfree_cancel (fun c hc => isDigit_ne_dot (natToDecimal_digits hc))
          (fun c hc => isDigit_ne_dot (natToDecimal_digits hc)) h3).1
    | none =>
      simp only at h
      rw [List.append_assoc, List.append_assoc] at h
      have h2 := List.append_cancel_left h
      have h3 := List.append_cancel_left h2
      exact natToDecimal_inj h3

theorem lastDotSplit_none {name : List Char}
    (h : (lastDotSplit name).2 = none) : lastDotSplit name = (name, none) := by
  unfold lastDotSplit at h ⊢
  cases hfind : name.reverse.findIdx? (fun c => c == '.') with
  | none => rfl
  | some j =>
    rw [hfind] at h
    simp only at h ⊢
    by_cases hi : 1 ≤ name.length - 1 - j
    · rw [if_pos hi] at h
      cases h
    · rw [if_neg hi]

theorem le_foldr_max : ∀ {l : List Nat} {x : Nat}, x ∈ l → x ≤ l.foldr max 0 := by
  intro l
  induction l with
  | nil => intro x h; cases h
  | cons a t ih =>
    intro x h
    rcases List.mem_cons.mp h with rfl | h2
    · exact Nat.le_max_left _ _
    · exact le_trans (ih h2) (Nat.le_max_right a _)

theorem findUntrashGo_spec (occ : List Nat) (count : Nat) :
    ∀ (fuel start : Nat), occ.foldr max 0 + 1 ≤ fuel + start →
      start ≤ findUntrashGo occ count fuel start ∧
      blockFreeB occ count (findUntrashGo occ count fuel start) = true ∧
      ∀ t, start ≤ t → t < findUntrashGo occ count fuel start →
        blockFreeB occ count t = false := by
  intro fuel
  induction fuel with
  | zero =>
    intro start hb
    have h0 : findUntrashGo occ count 0 start = start := rfl
    rw [h0]
    refine ⟨le_rfl, ?_, fun t h1 h2 => by omega⟩
    rw [blockFreeB, List.all_eq_true]
    intro j hj
    rw [List.mem_range'_1] at hj
    rw [Bool.not_eq_true']
    rw [← Bool.not_eq_true]
    intro hc
    rw [List.elem_iff] at hc
    have := le_foldr_max hc
    omega
  | succ f ih =>
    intro start hb
    cases hfind : (List.range' start count).find? (fun i => occ.contains i) with
    | none =>
      have hres : findUntrashGo occ count (f + 1) start = start := by
        simp only [findUntrashGo, hfind]
      rw [hres]
      refine ⟨le_rfl, ?_, fun t h1 h2 => by omega⟩
      rw [blockFreeB, List.all_eq_true]
      intro j hj
      rw [List.find?_eq_none] at hfind
      rw [Bool.not_eq_true']
      rw [← Bool.not_eq_true]
      exact hfind j hj
    | some i =>
      have hres : findUntrashGo occ count (f + 1) start =
          findUntrashGo occ count f (i + 1) := by
        simp only [findUntrashGo, hfind]
      have hip := List.find?_some hfind
      have him := List.mem_of_find?_eq_some hfind
      rw [List.mem_range'_1] at him
      rw [List.elem_iff] at hip
      have hile := le_foldr_max hip
      have ihs := ih (i + 1) (by omega)
      rw [hres]
      obtain ⟨ih1, ih2, ih3⟩ := ihs
      refine ⟨by omega, ih2, ?_⟩
      intro t h1 h2
      by_cases ht : i + 1 ≤ t
      · exact ih3 t ht h2
      · rw [blockFreeB, ← Bool.not_eq_true, List.all_eq_true]
        push_neg
        refine ⟨i, ?_, ?_⟩
        · rw [List.mem_range'_1]
          omega
        · simp only [ne_eq, Bool.not_eq_true, Bool.not_eq_false']
          exact List.elem_iff.mpr hip

theorem find_untrash_range_spec (occ : List Nat) (count : Nat) :
    1 ≤ find_untrash_range occ count ∧
    blockFreeB occ count (find_untrash_range occ count) = true ∧
    ∀ t, 1 ≤ t → t < find_untrash_range occ count →
      blockFreeB occ count t = false :=
  findUntrashGo_spec occ count (occ.foldr max 0 + 1) 1 (by omega)

/-- C7: `untrash_name` inserts `-untrash_<n>` immediately before the last
extension component of the basename: names with an extension keep it (the
result still ends in `.ext`), multi-dot names split only at the last dot
(`archive.tar.gz` yields `archive.tar-untrash_<n>.gz`), and dotfiles
without a further extension and extensionless names get the suffix appended
with no trailing dot-segment. -/
theorem untrash_name_spec :
    (∀ (name : List Char) (n : Nat) (stem ext : List Char),
      lastDotSplit name = (stem, some ext) →
      untrash_name name n =
        stem ++ "-untrash_".toList ++ natToDecimal n ++ '.' :: ext ∧
      ('.' :: ext) <:+ untrash_name name n) ∧
    (∀ n : Nat, untrash_name "archive.tar.gz".toList n =
      "archive.tar".toList ++ "-untrash_".toList ++ natToDecimal n ++
        '.' :: "gz".toList) ∧
    (untrash_name "archive.tar.gz".toList 1 = "archive.tar-untrash_1.gz".toList) ∧
    (∀ (name : List Char) (n : Nat), (lastDotSplit name).2 = none →
      untrash_name name n = name ++ ("-untrash_".toList ++ natToDecimal n) ∧
      ∀ c ∈ "-untrash_".toList ++ natToDecimal n, c ≠ '.') := by
  have hext : ∀ (name : List Char) (n : Nat) (stem ext : List Char),
      lastDotSplit name = (stem, some ext) →
      untrash_name name n =
        stem ++ "-untrash_".toList ++ natToDecimal n ++ '.' :: ext ∧
      ('.' :: ext) <:+ untrash_name name n := by
    intro name n stem ext h
    have hu : untrash_name name n =
        stem ++ "-untrash_".toList ++ natToDecimal n ++ '.' :: ext := by
      unfold untrash_name
      rw [h]
    refine ⟨hu, ?_⟩
    rw [hu]
    exact ⟨stem ++ "-untrash_".toList ++ natToDecimal n,
      by simp [List.append_assoc]⟩
  refine ⟨hext, ?_, by decide, ?_⟩
  · intro n
    exact (hext "archive.tar.gz".toList n "archive.tar".toList "gz".toList
      (by decide)).1
  · intro name n h
    have h2 := lastDotSplit_none h
    constructor
    · simp only [untrash_name, h2]
      rw [List.append_assoc]
    · intro c hc
      rcases List.mem_append.mp hc with hc2 | hc2
      · have hall : ∀ x ∈ "-untrash_".toList, x ≠ '.' := by decide
        exact hall c hc2
      · exact isDigit_ne_dot (natToDecimal_digits hc2)

/-- Witness for `untrash_name_spec`: the extension-preservation conjunct
applied to `foo.txt` at index 1. -/
theorem untrash_name_spec_witness :
    untrash_name "foo.txt".toList 1 =
      "foo".toList ++ "-untrash_".toList ++ natToDecimal 1 ++
        '.' :: "txt".toList ∧
    ('.' :: "txt".toList) <:+ untrash_name "foo.txt".toList 1 :=
  untrash_name_spec.1 "foo.txt".toList 1 "foo".toList "txt".toList (by decide)

/-- C8: `find_untrash_range` returns the smallest starting index `s ≥ 1`
such that none of the untrash names at indices `s .. s+count-1` exists, for
any finite set of occupied indices (the disk model; `untrash_name path ·`
is injective by `untrash_name_inj`); in particular with indices 1,2
occupied it returns 3 for count 3; with 1,3 occupied it returns 2 for
count 1 and 4 for count 2; and 1 on a free disk for every count. -/
theorem find_untrash_range_claim :
    (∀ (occ : List Nat) (count : Nat),
      1 ≤ find_untrash_range occ count ∧
      blockFreeB occ count (find_untrash_range occ count) = true ∧
      ∀ t, 1 ≤ t → t < find_untrash_range occ count →
        blockFreeB occ count t = false) ∧
    (∀ count : Nat, find_untrash_range [] count = 1) ∧
    (find_untrash_range [1, 2] 3 = 3) ∧
    (find_untrash_range [1, 3] 1 = 2) ∧
    (find_untrash_range [1, 3] 2 = 4) := by
  refine ⟨find_untrash_range_spec, ?_, by decide, by decide, by decide⟩
  intro count
  show findUntrashGo [] count (List.foldr max 0 [] + 1) 1 = 1
  have h : (List.range' 1 count).find? (fun _ : Nat => false) = none := by
    rw [List.find?_eq_none]
    intro a _
    simp
  simp [findUntrashGo, h]

/-- Witness for `find_untrash_range_claim`: minimality applied at the
concrete occupied set `{1, 2}` with count 3 and candidate start 2. -/
theorem find_untrash_range_claim_witness :
    blockFreeB [1, 2] 3 2 = false :=
  (find_untrash_range_claim.1 [1, 2] 3).2.2 2 (by decide) (by decide)

/-- C9: in the twin flow, end-of-input at the main prompt resolves to Quit,
but end-of-input during the "Some" selection sub-prompt resolves to None
(the group is skipped, the run is not aborted); invalid input at either
prompt re-prompts without resolving. -/
theorem twin_flow_eof_spec :
    (∀ twins : List TwinInfo, prompt_twins twins [] = (.quit, [])) ∧
    (∀ twins : List TwinInfo, prompt_twins twins ["s".toList] = (.none, [])) ∧
    (∀ (twins : List TwinInfo) (line : List Char) (rest : List (List Char)),
      (∀ c, lowerFirst line = some c → c ∉ ['l', 'a', 'n', 'q', 's']) →
      prompt_twins twins (line :: rest) = prompt_twins twins rest) ∧
    (∀ (count : Nat) (line : List Char) (rest : List (List Char)),
      ((trimChars line).isEmpty = true ∨
        (∀ sel, parse_selection (trimChars line) count = .ok sel → sel = [])) →
      prompt_selection count (line :: rest) = prompt_selection count rest) := by
  refine ⟨fun twins => rfl, fun twins => rfl, ?_, ?_⟩
  · intro twins line rest h
    cases hlf : lowerFirst line with
    | none => simp only [prompt_twins, hlf]
    | some c =>
      have hc := h c hlf
      simp only [List.mem_cons, List.not_mem_nil, or_false, not_or] at hc
      obtain ⟨h1, h2, h3, h4, h5⟩ := hc
      simp only [prompt_twins, hlf, if_neg h1, if_neg h2, if_neg h3, if_neg h4,
        if_neg h5]
  · intro count line rest h
    by_cases hemp : (trimChars line).isEmpty
    · simp only [prompt_selection, if_pos hemp]
    · rcases h with h | h
      · exact absurd h hemp
      · cases hps : parse_selection (trimChars line) count with
        | ok sel =>
          have hsel : sel = [] := h sel hps
          subst hsel
          simp only [prompt_selection, if_neg hemp, hps, List.isEmpty_nil,
            if_pos]
        | error e =>
          simp only [prompt_selection, if_neg hemp, hps]

/-- Witness for `twin_flow_eof_spec`: the invalid-input conjunct applied to
the concrete invalid line `x`, and the sub-prompt conjunct to the invalid
selection `abc`. -/
theorem twin_flow_eof_spec_witness :
    prompt_twins [] ["x".toList, "a".toList] = prompt_twins [] ["a".toList] ∧
    prompt_selection 3 ["abc".toList, "2".toList] =
      prompt_selection 3 ["2".toList] := by
  constructor
  · refine twin_flow_eof_spec.2.2.1 [] "x".toList ["a".toList] ?_
    intro c hc
    have h2 : lowerFirst "x".toList = some 'x' := by decide
    rw [h2] at hc
    have : c = 'x' := (Option.some.inj hc).symm
    subst this
    decide
  · refine twin_flow_eof_spec.2.2.2 3 "abc".toList ["2".toList] (Or.inr ?_)
    intro sel hsel
    have : parse_selection (trimChars "abc".toList) 3 =
        .error "invalid number: 'abc'" := by rfl
    rw [this] at hsel
    cases hsel

theorem print_items_go_pre (fmt : Int → List Char) (all : List TrashItem)
    (pre : List Char) :
    ∀ (rest seen : List TrashItem),
      ∀ line ∈ print_items_go fmt all pre seen rest, pre <+: line := by
  intro rest
  induction rest with
  | nil => intro seen line h; cases h
  | cons it r ih =>
    intro seen line h
    rcases List.mem_cons.mp h with rfl | h2
    · by_cases ht : 1 < pathCount all it.originalPath
      · simp only [if_pos ht]
        simp only [List.append_assoc]
        exact List.prefix_append pre _
      · simp only [if_neg ht]
        rw [List.append_assoc]
        exact List.prefix_append pre _
    · exact ih (seen ++ [it]) line h2

theorem print_items_pre (fmt : Int → List Char) (items : List TrashItem)
    (pre : List Char) :
    ∀ line ∈ print_items fmt items pre, pre <+: line :=
  print_items_go_pre fmt items pre items []

/-- C10: with `dry_run = true`, neither `restore_items` nor `purge_items`
makes any call to the trash store — the effect trace is empty — and the
items are only printed, each line carrying the "would restore" / "would
purge" prefix (or the no-match message when nothing matched). -/
theorem dry_run_frame (fmt : Int → List Char) (pattern : List Char)
    (m : CompiledMatcher) (t : MatchTarget) (items : List TrashItem) :
    (restore_items fmt pattern m t true items).2 = [] ∧
    (purge_items fmt pattern m t true items).2 = [] ∧
    (matchingItems m t items = [] →
      (restore_items fmt pattern m t true items).1 = [noMatchLine pattern] ∧
      (purge_items fmt pattern m t true items).1 = [noMatchLine pattern]) ∧
    (matchingItems m t items ≠ [] →
      (restore_items fmt pattern m t true items).1 =
        print_items fmt (matchingItems m t items) "would restore".toList ∧
      (∀ line ∈ (restore_items fmt pattern m t true items).1,
        "would restore".toList <+: line) ∧
      (purge_items fmt pattern m t true items).1 =
        print_items fmt (matchingItems m t items) "would purge".toList ∧
      (∀ line ∈ (purge_items fmt pattern m t true items).1,
        "would purge".toList <+: line)) := by
  by_cases hm : (matchingItems m t items).isEmpty
  · have hm2 : matchingItems m t items = [] := List.isEmpty_iff.mp hm
    refine ⟨?_, ?_, fun _ => ⟨?_, ?_⟩, fun hne => absurd hm2 hne⟩ <;>
      simp only [restore_items, purge_items, if_pos hm]
  · have hm2 : matchingItems m t items ≠ [] :=
      fun h => absurd (List.isEmpty_iff.mpr h) hm
    have hre : restore_items fmt pattern m t true items =
        (print_items fmt (matchingItems m t items) "would restore".toList,
          []) := by
      simp only [restore_items, if_neg hm]
      rfl
    have hpu : purge_items fmt pattern m t true items =
        (print_items fmt (matchingItems m t items) "would purge".toList,
          []) := by
      simp only [purge_items, if_neg hm]
      rfl
    refine ⟨by rw [hre], by rw [hpu], fun h => absurd h hm2, fun _ => ?_⟩
    refine ⟨by rw [hre], ?_, by rw [hpu], ?_⟩
    · rw [hre]
      exact print_items_pre fmt (matchingItems m t items) _
    · rw [hpu]
      exact print_items_pre fmt (matchingItems m t items) _

/-- Witness for `dry_run_frame`: applied to a concrete one-item trash list
matched by the empty literal pattern. -/
theorem dry_run_frame_witness :
    (restore_items (fun _ => "ts".toList) [] (.string [] false) .name true
      [⟨"a.txt".toList, "/tmp/a.txt".toList, 1⟩]).2 = [] ∧
    (restore_items (fun _ => "ts".toList) [] (.string [] false) .name true
      [⟨"a.txt".toList, "/tmp/a.txt".toList, 1⟩]).1 =
      print_items (fun _ => "ts".toList)
        (matchingItems (.string [] false) .name
          [⟨"a.txt".toList, "/tmp/a.txt".toList, 1⟩])
        "would restore".toList := by
  have h := dry_run_frame (fun _ => "ts".toList) [] (.string [] false) .name
    [⟨"a.txt".toList, "/tmp/a.txt".toList, 1⟩]
  exact ⟨h.1, (h.2.2.2 (by decide)).1⟩

/-- C1 (failing-input evaluation): on a trash list whose two items share
the original path `/tmp/a.txt` — a twin group of size 2 — matched by the
always-matching empty literal pattern, `restore_items` emits no twin
prompt whatsoever and restores both members in one unconditional
`restore_all` batch.  The repository's own integration tests
(`test_trash_undo_twins_all`, `test_trash_undo_twins_none` in
`tests/cli.rs`) expect the interactive twin flow of `interact.rs` instead,
which `restore_items` never invokes. -/
theorem restore_no_twin_prompt :
    (restore_items (fun _ => "ts".toList) [] (.string [] false) .name false
        [⟨"a.txt".toList, "/tmp/a.txt".toList, 1⟩,
         ⟨"a.txt".toList, "/tmp/a.txt".toList, 2⟩]).2 =
      [.restoreAll
        [⟨"a.txt".toList, "/tmp/a.txt".toList, 1⟩,
         ⟨"a.txt".toList, "/tmp/a.txt".toList, 2⟩]] ∧
    pathCount
        [⟨"a.txt".toList, "/tmp/a.txt".toList, 1⟩,
         ⟨"a.txt".toList, "/tmp/a.txt".toList, 2⟩]
        "/tmp/a.txt".toList = 2 ∧
    ∀ e ∈ (restore_items (fun _ => "ts".toList) [] (.string [] false) .name
        false
        [⟨"a.txt".toList, "/tmp/a.txt".toList, 1⟩,
         ⟨"a.txt".toList, "/tmp/a.txt".toList, 2⟩]).2,
      e.isPromptTwin = false := by
  refine ⟨by decide, by decide, by decide⟩

theorem resolve_twin_cached (cs : List Conflict) :
    ∀ (st : ResolverState) (ct : TwinChoice), st.twinCache = Option.some ct →
      (resolveConflicts true cs st).2.twinCache = Option.some ct ∧
      ∀ x ∈ (resolveConflicts true cs st).1.filterMap twinResOf, x = ct := by
  induction cs with
  | nil =>
    intro st ct h
    exact ⟨h, by intro x hx; cases hx⟩
  | cons c rest ih =>
    intro st ct h
    cases c with
    | twin p tw =>
      simp only [resolveConflicts, h]
      obtain ⟨ih1, ih2⟩ := ih st ct h
      refine ⟨ih1, ?_⟩
      intro x hx
      simp only [List.filterMap_cons, twinResOf] at hx
      rcases List.mem_cons.mp hx with rfl | hx2
      · rfl
      · exact ih2 x hx2
    | collision p k =>
      cases hc : st.collisionCache with
      | some cc =>
        simp only [resolveConflicts, hc]
        obtain ⟨ih1, ih2⟩ := ih st ct h
        refine ⟨ih1, ?_⟩
        intro x hx
        simp only [List.filterMap_cons, twinResOf] at hx
        exact ih2 x hx
      | none =>
        simp only [resolveConflicts, hc]
        obtain ⟨ih1, ih2⟩ :=
          ih { input := (prompt_collision st.input).2,
               twinCache := st.twinCache,
               collisionCache := Option.some (prompt_collision st.input).1 }
            ct h
        refine ⟨ih1, ?_⟩
        intro x hx
        simp only [List.filterMap_cons, twinResOf] at hx
        exact ih2 x hx

theorem resolve_coll_cached (cs : List Conflict) :
    ∀ (st : ResolverState) (cc : CollisionChoice),
      st.collisionCache = Option.some cc →
      (resolveConflicts true cs st).2.collisionCache = Option.some cc ∧
      ∀ x ∈ (resolveConflicts true cs st).1.filterMap collResOf, x = cc := by
  induction cs with
  | nil =>
    intro st cc h
    exact ⟨h, by intro x hx; cases hx⟩
  | cons c rest ih =>
    intro st cc h
    cases c with
    | collision p k =>
      simp only [resolveConflicts, h]
      obtain ⟨ih1, ih2⟩ := ih st cc h
      refine ⟨ih1, ?_⟩
      intro x hx
      simp only [List.filterMap_cons, collResOf] at hx
      rcases List.mem_cons.mp hx with rfl | hx2
      · rfl
      · exact ih2 x hx2
    | twin p tw =>
      cases hc : st.twinCache with
      | some ct =>
        simp only [resolveConflicts, hc]
        obtain ⟨ih1, ih2⟩ := ih st cc h
        refine ⟨ih1, ?_⟩
        intro x hx
        simp only [List.filterMap_cons, collResOf] at hx
        exact ih2 x hx
      | none =>
        simp only [resolveConflicts, hc]
        obtain ⟨ih1, ih2⟩ :=
          ih { input := (prompt_twins tw st.input).2,
               twinCache := Option.some (prompt_twins tw st.input).1,
               collisionCache := st.collisionCache }
            cc h
        refine ⟨ih1, ?_⟩
        intro x hx
        simp only [List.filterMap_cons, collResOf] at hx
        exact ih2 x hx

theorem resolve_twin_uniform (cs : List Conflict) :
    ∀ (st : ResolverState), st.twinCache = Option.none →
      ∀ x ∈ (resolveConflicts true cs st).1.filterMap twinResOf,
      ∀ y ∈ (resolveConflicts true cs st).1.filterMap twinResOf, x = y := by
  induction cs with
  | nil =>
    intro st h x hx
    cases hx
  | cons c rest ih =>
    intro st h
    cases c with
    | twin p tw =>
      simp only [resolveConflicts, h]
      intro x hx y hy
      have hall := (resolve_twin_cached rest
        { input := (prompt_twins tw st.input).2,
          twinCache := Option.some (prompt_twins tw st.input).1,
          collisionCache := st.collisionCache }
        (prompt_twins tw st.input).1 rfl).2
      simp only [List.filterMap_cons, twinResOf] at hx hy
      have hx2 : x = (prompt_twins tw st.input).1 := by
        rcases List.mem_cons.mp hx with rfl | hx2
        · rfl
        · exact hall x hx2
      have hy2 : y = (prompt_twins tw st.input).1 := by
        rcases List.mem_cons.mp hy with rfl | hy2
        · rfl
        · exact hall y hy2
      rw [hx2, hy2]
    | collision p k =>
      cases hc : st.collisionCache with
      | some cc =>
        simp only [resolveConflicts, hc]
        intro x hx y hy
        simp only [List.filterMap_cons, collResOf, twinResOf] at hx hy
        exact ih st h x hx y hy
      | none =>
        simp only [resolveConflicts, hc]
        intro x hx y hy
        simp only [List.filterMap_cons, collResOf, twinResOf] at hx hy
        exact ih ⟨(prompt_collision st.input).2, st.twinCache,
          Option.some (prompt_collision st.input).1⟩ h x hx y hy

theorem resolve_coll_uniform (cs : List Conflict) :
    ∀ (st : ResolverState), st.collisionCache = Option.none →
      ∀ x ∈ (resolveConflicts true cs st).1.filterMap collResOf,
      ∀ y ∈ (resolveConflicts true cs st).1.filterMap collResOf, x = y := by
  induction cs with
  | nil =>
    intro st h x hx
    cases hx
  | cons c rest ih =>
    intro st h
    cases c with
    | collision p k =>
      simp only [resolveConflicts, h]
      intro x hx y hy
      have hall := (resolve_coll_cached rest
        { input := (prompt_collision st.input).2,
          twinCache := st.twinCache,
          collisionCache := Option.some (prompt_collision st.input).1 }
        (prompt_collision st.input).1 rfl).2
      simp only [List.filterMap_cons, collResOf] at hx hy
      have hx2 : x = (prompt_collision st.input).1 := by
        rcases List.mem_cons.mp hx with rfl | hx2
        · rfl
        · exact hall x hx2
      have hy2 : y = (prompt_collision st.input).1 := by
        rcases List.mem_cons.mp hy with rfl | hy2
        · rfl
        · exact hall y hy2
      rw [hx2, hy2]
    | twin p tw =>
      cases hc : st.twinCache with
      | some ct =>
        simp only [resolveConflicts, hc]
        intro x hx y hy
        simp only [List.filterMap_cons, collResOf, twinResOf] at hx hy
        exact ih st h x hx y hy
      | none =>
        simp only [resolveConflicts, hc]
        intro x hx y hy
        simp only [List.filterMap_cons, collResOf, twinResOf] at hx hy
        exact ih ⟨(prompt_twins tw st.input).2,
          Option.some (prompt_twins tw st.input).1, st.collisionCache⟩ h x hx y hy

theorem resolve_all_cached (cs : List Conflict) :
    ∀ (inp : List (List Char)) (ct : TwinChoice) (cc : CollisionChoice),
      resolveConflicts true cs ⟨inp, Option.some ct, Option.some cc⟩ =
        (cs.map (fun c => match c with
          | .twin _ _ => Resolution.twin ct
          | .collision _ _ => Resolution.collision cc),
         ⟨inp, Option.some ct, Option.some cc⟩) := by
  induction cs with
  | nil => intro inp ct cc; rfl
  | cons c rest ih =>
    intro inp ct cc
    cases c with
    | twin p tw =>
      simp only [resolveConflicts, List.map_cons, ih]
    | collision p k =>
      simp only [resolveConflicts, List.map_cons, ih]

theorem resolve_twin_indep (cs : List Conflict) :
    ∀ (st : ResolverState), (∀ c ∈ cs, c.isTwin = false) →
      (resolveConflicts true cs st).2.twinCache = st.twinCache := by
  induction cs with
  | nil => intro st _; rfl
  | cons c rest ih =>
    intro st h
    cases c with
    | twin p tw =>
      have := h (.twin p tw) (by simp)
      simp [Conflict.isTwin] at this
    | collision p k =>
      have hrest : ∀ c ∈ rest, c.isTwin = false :=
        fun c hc => h c (List.mem_cons_of_mem _ hc)
      cases hc : st.collisionCache with
      | some cc =>
        simp only [resolveConflicts, hc]
        exact ih st hrest
      | none =>
        simp only [resolveConflicts, hc]
        exact ih _ hrest

theorem resolve_coll_indep (cs : List Conflict) :
    ∀ (st : ResolverState), (∀ c ∈ cs, c.isTwin = true) →
      (resolveConflicts true cs st).2.collisionCache = st.collisionCache := by
  induction cs with
  | nil => intro st _; rfl
  | cons c rest ih =>
    intro st h
    cases c with
    | collision p k =>
      have := h (.collision p k) (by simp)
      simp [Conflict.isTwin] at this
    | twin p tw =>
      have hrest : ∀ c ∈ rest, c.isTwin = true :=
        fun c hc => h c (List.mem_cons_of_mem _ hc)
      cases hc : st.twinCache with
      | some ct =>
        simp only [resolveConflicts, hc]
        exact ih st hrest
      | none =>
        simp only [resolveConflicts, hc]
        exact ih _ hrest

/-- C2: with `once = true`, the first resolution obtained for a conflict
kind is cached and automatically applied to every later conflict of that
kind in the same invocation without re-prompting, twin and collision
decisions cached independently: (i) with both caches filled the resolver
consumes no input at all and maps every conflict to its kind's cached
decision; (ii) from empty caches every twin resolution of a run equals the
first one, and likewise every collision resolution; (iii)/(iv) runs
without conflicts of one kind leave that kind's cache untouched; (v)
concretely, two twin groups over a single `a` input line both resolve to
All — the second without reading input.  (The resolver is modelled from
the spec; see `resolveConflicts`.) -/
theorem once_cache_spec :
    (∀ (cs : List Conflict) (inp : List (List Char)) (ct : TwinChoice)
        (cc : CollisionChoice),
      resolveConflicts true cs ⟨inp, Option.some ct, Option.some cc⟩ =
        (cs.map (fun c => match c with
          | .twin _ _ => Resolution.twin ct
          | .collision _ _ => Resolution.collision cc),
         ⟨inp, Option.some ct, Option.some cc⟩)) ∧
    (∀ (cs : List Conflict) (inp : List (List Char)),
      (∀ x ∈ (resolveConflicts true cs
          ⟨inp, Option.none, Option.none⟩).1.filterMap twinResOf,
       ∀ y ∈ (resolveConflicts true cs
          ⟨inp, Option.none, Option.none⟩).1.filterMap twinResOf, x = y) ∧
      (∀ x ∈ (resolveConflicts true cs
          ⟨inp, Option.none, Option.none⟩).1.filterMap collResOf,
       ∀ y ∈ (resolveConflicts true cs
          ⟨inp, Option.none, Option.none⟩).1.filterMap collResOf, x = y)) ∧
    (∀ (cs : List Conflict) (st : ResolverState),
      (∀ c ∈ cs, c.isTwin = false) →
      (resolveConflicts true cs st).2.twinCache = st.twinCache) ∧
    (∀ (cs : List Conflict) (st : ResolverState),
      (∀ c ∈ cs, c.isTwin = true) →
      (resolveConflicts true cs st).2.collisionCache = st.collisionCache) ∧
    (resolveConflicts true [.twin [] [], .twin [] []]
        ⟨["a".toList], Option.none, Option.none⟩ =
      ([.twin .all, .twin .all],
       ⟨[], Option.some .all, Option.none⟩)) := by
  refine ⟨resolve_all_cached, ?_, resolve_twin_indep, resolve_coll_indep,
    by rfl⟩
  intro cs inp
  exact ⟨resolve_twin_uniform cs ⟨inp, Option.none, Option.none⟩ rfl,
    resolve_coll_uniform cs ⟨inp, Option.none, Option.none⟩ rfl⟩

/-- Witness for `once_cache_spec`: the twin-independence conjunct applied
to a concrete collision-only run, and the uniformity conjunct applied to a
concrete twin run. -/
theorem once_cache_spec_witness :
    (resolveConflicts true [.collision [] []]
        ⟨["o".toList], Option.none, Option.none⟩).2.twinCache = Option.none ∧
    ∀ x ∈ (resolveConflicts true [.twin [] [], .twin [] []]
        ⟨["a".toList], Option.none, Option.none⟩).1.filterMap twinResOf,
    ∀ y ∈ (resolveConflicts true [.twin [] [], .twin [] []]
        ⟨["a".toList], Option.none, Option.none⟩).1.filterMap twinResOf,
      x = y := by
  constructor
  · exact once_cache_spec.2.2.1 [.collision [] []]
      ⟨["o".toList], Option.none, Option.none⟩ (by decide)
  · exact (once_cache_spec.2.1 [.twin [] [], .twin [] []] ["a".toList]).1

end Trache
